import Mathlib

/-!
Verification of the concurrent multi-sheet ingestion and deduplication engine
of `src/excel/union_sheets.py` (functions `union_sheets_concurrent`,
`union_sheets`, `unique_keys`, and the per-sheet worker `process_sheet_task`).

The backing DuckDB store is modelled as an association list from table names
to tables; a table is a column-name list plus a list of rows (all values are
text, matching `all_varchar=true` in the source).  Worker scheduling is
modelled by linearizing each concurrent run: the coordinator's
`as_completed` loop consumes task results in an arbitrary completion order
(a parameter), tasks that had already completed but were never consumed and
tasks still in flight when a failure is observed are further parameters.
-/

namespace UnionSheets

/-- A DuckDB table: named text columns and rows of text values
(`all_varchar=true` in every `read_xlsx` call of the source). -/
structure Table where
  cols : List String
  rows : List (List String)
deriving Repr, DecidableEq

/-- The backing store: an association list from relation names to tables. -/
abbrev Store := List (String × Table)

/-- Errors surfaced by the engine, one constructor per distinct failure
observed in the source (DuckDB binder/catalog errors, the
`ThreadPoolExecutor` `ValueError` on a non-positive worker count, and the
explicit empty-projection check of `unique_keys`). -/
inductive Err where
  | tableExists
  | missingTable
  | missingColumn
  | arityMismatch
  | poolInit
  | emptyProjection
deriving Repr, DecidableEq

deriving instance DecidableEq for Except

/-- `SELECT ... FROM name`: first binding of `name` in the store. -/
def lookupTable : Store → String → Option Table
  | [], _ => none
  | (m, t) :: s, n => if m = n then some t else lookupTable s n

/-- `DROP TABLE IF EXISTS name`: removes every binding of `name`. -/
def dropTable : Store → String → Store
  | [], _ => []
  | (m, t) :: s, n => if m = n then dropTable s n else (m, t) :: dropTable s n

/-- Replaces the table bound to `name` (used to model `INSERT INTO`). -/
def updateTable : Store → String → Table → Store
  | [], _, _ => []
  | (m, t) :: s, n, t' =>
    if m = n then (m, t') :: updateTable s n t' else (m, t) :: updateTable s n t'

/-- `CREATE TABLE name AS ...`: fails if a relation `name` already exists. -/
def createTable (s : Store) (n : String) (t : Table) : Except Err Store :=
  if (lookupTable s n).isSome then .error .tableExists else .ok ((n, t) :: s)

/-- `INSERT INTO name SELECT * FROM src`: DuckDB binds the inserted columns
positionally, so the insert succeeds precisely when the column COUNTS agree;
column names are not compared. -/
def insertRows (s : Store) (n : String) (t : Table) : Except Err Store :=
  match lookupTable s n with
  | none => .error .missingTable
  | some d =>
    if d.cols.length = t.cols.length then
      .ok (updateTable s n ⟨d.cols, d.rows ++ t.rows⟩)
    else .error .arityMismatch

/-- An ingestion projection: `(expression, optional alias)` pairs, the
expressions being plain column references as in every caller of the source.
`none` models the `projections is None` path (`SELECT *`). -/
abbrev IngestProj := List (String × Option String)

/-- Position of column `c` in a column list. -/
def colIndex : List String → String → Option Nat
  | [], _ => none
  | c :: cs, x => if c = x then some 0 else (colIndex cs x).map (· + 1)

/-- The output column name of one projection entry: the alias when it is
present and non-blank, the expression itself otherwise.  `if alias and
alias.strip()` in the source: a `None`, empty, or all-whitespace alias is
falsy there. -/
def projOutName (expr : String) (alias? : Option String) : String :=
  match alias? with
  | some a => if a.data.all Char.isWhitespace then expr else a
  | none => expr

/-- `SELECT {projection_str} FROM read_xlsx(...)` applied to one sheet: with
no projection all columns pass through; otherwise each referenced column must
exist (a missing column is a binder error) and the projected values are
emitted under the entries' output names. -/
def projectTable (proj : Option IngestProj) (t : Table) : Except Err Table :=
  match proj with
  | none => .ok t
  | some ps =>
    if ps.all (fun p => (colIndex t.cols p.1).isSome) then
      .ok ⟨ps.map (fun p => projOutName p.1 p.2),
           t.rows.map (fun row => ps.map (fun p => row.getD ((colIndex t.cols p.1).getD 0) ""))⟩
    else .error .missingColumn

/-- The staged (projected) table of the sheet with index `i`. -/
def stageOf (sheets : List Table) (proj : Option IngestProj) (i : Nat) : Except Err Table :=
  match sheets[i]? with
  | none => .error .missingTable
  | some sh => projectTable proj sh

/-- `temp_table = f"temp_sheet_{sheet_index}_{int(time.time() * 1000) % 10000}"`
from `process_sheet_task`; `ms` is the worker's millisecond timestamp. -/
def tempTableName (sheetIndex ms : Nat) : String :=
  "temp_sheet_" ++ toString sheetIndex ++ "_" ++ toString (ms % 10000)

/-- `CREATE TABLE dest AS SELECT * FROM tmp` issued by the coordinator for the
first completed task. -/
def createFromTemp (s : Store) (dest tmp : String) : Except Err Store :=
  match lookupTable s tmp with
  | none => .error .missingTable
  | some t => createTable s dest t

/-- `INSERT INTO dest SELECT * FROM tmp` issued by the coordinator for every
subsequent completed task. -/
def insertFromTemp (s : Store) (dest tmp : String) : Except Err Store :=
  match lookupTable s tmp with
  | none => .error .missingTable
  | some t => insertRows s dest t

/-- Staging-table creation performed by workers whose results the coordinator
never consumes (tasks already completed when the failure was observed, and
in-flight tasks that `f.cancel()` cannot stop and that the executor's
`shutdown(wait=True)` waits for).  A worker whose own `CREATE TABLE` fails
leaves the store unchanged. -/
def createPendingTemps (sheets : List Table) (proj : Option IngestProj)
    (msOf : Nat → Nat) (s : Store) (idxs : List Nat) : Store :=
  idxs.foldl
    (fun s i =>
      match stageOf sheets proj i with
      | .error _ => s
      | .ok tbl =>
        match createTable s (tempTableName i (msOf i)) tbl with
        | .ok s' => s'
        | .error _ => s)
    s

/-- The `except` branch of the coordinator (lines 332-352 of the source),
linearized: temp tables of completed-but-unconsumed workers already exist
(`doneU`); the branch then drops every temp table it recorded in
`temp_tables`, drops the destination table if `first_table_created`, and
re-raises; leaving the `with` block waits for in-flight workers (`late`),
whose staging tables are created after the cleanup ran. -/
def abortCall (sheets : List Table) (proj : Option IngestProj) (msOf : Nat → Nat)
    (tableName : String) (doneU late : List Nat) (s : Store)
    (tempNames : List String) (firstCreated : Bool) (e : Err) : Store × Option Err :=
  let s := createPendingTemps sheets proj msOf s doneU
  let s := tempNames.foldl dropTable s
  let s := if firstCreated then dropTable s tableName else s
  (createPendingTemps sheets proj msOf s late, some e)

/-- The coordinator's `for future in as_completed(...)` loop (lines 305-330):
`consumed` lists the task indices in the order their results are consumed.
Each consumed success first materializes its staging table (the worker's
`CREATE TABLE temp_... AS SELECT ... FROM read_xlsx(...)`), records it in
`temp_tables`, then either creates the destination table from it (first
success) or inserts its rows.  Any failure diverts to `abortCall`; after a
fully consumed loop every recorded temp table is dropped. -/
def mergeLoop (sheets : List Table) (proj : Option IngestProj) (msOf : Nat → Nat)
    (tableName : String) (doneU late : List Nat) :
    List Nat → Store → List String → Bool → Store × Option Err
  | [], s, tempNames, _ => (tempNames.foldl dropTable s, none)
  | i :: rest, s, tempNames, firstCreated =>
    match stageOf sheets proj i with
    | .error e => abortCall sheets proj msOf tableName doneU late s tempNames firstCreated e
    | .ok tbl =>
      let tmp := tempTableName i (msOf i)
      match createTable s tmp tbl with
      | .error e => abortCall sheets proj msOf tableName doneU late s tempNames firstCreated e
      | .ok s1 =>
        let tempNames' := tempNames ++ [tmp]
        if firstCreated then
          match insertFromTemp s1 tableName tmp with
          | .error e => abortCall sheets proj msOf tableName doneU late s1 tempNames' true e
          | .ok s2 => mergeLoop sheets proj msOf tableName doneU late rest s2 tempNames' true
        else
          match createFromTemp s1 tableName tmp with
          | .error e => abortCall sheets proj msOf tableName doneU late s1 tempNames' false e
          | .ok s2 => mergeLoop sheets proj msOf tableName doneU late rest s2 tempNames' true

/-- `if max_workers > len(sheet_names): max_workers = len(sheet_names)`
(lines 204-205). -/
def effectiveWorkers (maxWorkers : Int) (numSheets : Nat) : Int :=
  if maxWorkers > (numSheets : Int) then (numSheets : Int) else maxWorkers

/-- `union_sheets_concurrent` (lines 179-371), linearized.  `sheets` are the
tables of the enumerated sheets, `msOf i` the millisecond timestamp the
worker of sheet `i` uses in its staging name, and `consumed`, `doneU`,
`late` the scheduling parameters described on `mergeLoop` and `abortCall`.
The empty sheet list returns at once (lines 199-201); the destination table
is dropped before the pool starts (line 287); constructing
`ThreadPoolExecutor` with a non-positive `max_workers` raises `ValueError`
(modelled as `Err.poolInit`). -/
def union_sheets_concurrent (store : Store) (sheets : List Table) (tableName : String)
    (proj : Option IngestProj) (maxWorkers : Int) (msOf : Nat → Nat)
    (consumed doneU late : List Nat) : Store × Option Err :=
  if sheets.isEmpty then (store, none)
  else
    let w := effectiveWorkers maxWorkers sheets.length
    let s := dropTable store tableName
    if w ≤ 0 then (s, some .poolInit)
    else mergeLoop sheets proj msOf tableName doneU late consumed s [] false

/-- Projects every sheet, stopping at the first binder error (the whole
`UNION ALL` statement fails if any of its member queries fails to bind). -/
def projectAll (proj : Option IngestProj) : List Table → Except Err (List Table)
  | [] => .ok []
  | t :: ts =>
    match projectTable proj t with
    | .error e => .error e
    | .ok t' =>
      match projectAll proj ts with
      | .error e => .error e
      | .ok ts' => .ok (t' :: ts')

/-- `q1 UNION ALL q2 UNION ALL ...`: every member query must produce the same
number of columns (positional union); the result takes the first query's
column names and concatenates all rows. -/
def unionAllTables : List Table → Except Err Table
  | [] => .error .missingTable
  | t :: ts =>
    if ts.all (fun u => u.cols.length = t.cols.length) then
      .ok ⟨t.cols, t.rows ++ (ts.map Table.rows).flatten⟩
    else .error .arityMismatch

/-- The `> 3` branch of `union_sheets` (lines 427-467): the first sheet is
read into `CREATE TABLE {table_name} AS SELECT ...`, every further sheet into
`INSERT INTO {table_name} SELECT ...`; a failure propagates at once with no
cleanup. -/
def batchInsertGo (proj : Option IngestProj) (tableName : String) :
    List Table → Store → Bool → Store × Option Err
  | [], s, _ => (s, none)
  | sh :: rest, s, created =>
    match projectTable proj sh with
    | .error e => (s, some e)
    | .ok tbl =>
      if created then
        match insertRows s tableName tbl with
        | .error e => (s, some e)
        | .ok s' => batchInsertGo proj tableName rest s' true
      else
        match createTable s tableName tbl with
        | .error e => (s, some e)
        | .ok s' => batchInsertGo proj tableName rest s' true

/-- Sequential `union_sheets` (lines 374-501): empty sheet list returns at
once; the existing destination table is dropped; more than 3 sheets take the
batched CREATE-then-INSERT strategy, at most 3 sheets a single
`CREATE TABLE ... AS (q1 UNION ALL q2 ...)` statement. -/
def union_sheets (store : Store) (sheets : List Table) (tableName : String)
    (proj : Option IngestProj) : Store × Option Err :=
  if sheets.isEmpty then (store, none)
  else
    let s := dropTable store tableName
    if sheets.length > 3 then
      batchInsertGo proj tableName sheets s false
    else
      match projectAll proj sheets with
      | .error e => (s, some e)
      | .ok ts =>
        match unionAllTables ts with
        | .error e => (s, some e)
        | .ok t =>
          match createTable s tableName t with
          | .error e => (s, some e)
          | .ok s' => (s', none)

/-- The SQL expression fragment callers of `unique_keys` pass in their
projection lists: a plain column reference, `any_value("col")`, or
`COUNT(*)`. -/
inductive DedupExpr where
  | col (c : String)
  | anyValue (c : String)
  | countStar
deriving Repr, DecidableEq

/-- A deduplication projection: `(expression, optional alias)` pairs, the
first entry being the dedup key. -/
abbrev DedupProj := List (DedupExpr × Option String)

/-- Whether DuckDB treats the expression as an aggregate (excluded from the
grouping keys chosen by `GROUP BY ALL`). -/
def isAggregate : DedupExpr → Bool
  | .col _ => false
  | .anyValue _ => true
  | .countStar => true

/-- Value of column `c` in one row (all values are text). -/
def evalCol (cols : List String) (row : List String) (c : String) : String :=
  row.getD ((colIndex cols c).getD 0) ""

/-- The columns every expression of the projection references must bind. -/
def dedupBinderOk (cols : List String) (ps : DedupProj) : Bool :=
  ps.all fun p =>
    match p.1 with
    | .col c => (colIndex cols c).isSome
    | .anyValue c => (colIndex cols c).isSome
    | .countStar => true

/-- The grouping key of a row under `GROUP BY ALL`: the values of all
non-aggregate select expressions, in projection order. -/
def groupKey (cols : List String) (ps : DedupProj) (row : List String) : List String :=
  (ps.filter (fun p => !(isAggregate p.1))).map fun p =>
    match p.1 with
    | .col c => evalCol cols row c
    | .anyValue c => evalCol cols row c
    | .countStar => ""

/-- Adds a row to the group bearing its key, keeping first-arrival group
order. -/
def insertGroup (k : List String) (row : List String) :
    List (List String × List (List String)) → List (List String × List (List String))
  | [] => [(k, [row])]
  | (k', rs) :: gs =>
    if k' = k then (k', rs ++ [row]) :: gs else (k', rs) :: insertGroup k row gs

/-- Groups the rows of the input relation by their `GROUP BY ALL` key. -/
def groupRows (cols : List String) (ps : DedupProj) (rows : List (List String)) :
    List (List String × List (List String)) :=
  rows.foldl (fun gs row => insertGroup (groupKey cols ps row) row gs) []

/-- The output row of one group: non-aggregate entries and `any_value` take
their value from a representative row of the group (all group members agree
on non-aggregate entries), `COUNT(*)` the group size. -/
def outputRow (cols : List String) (ps : DedupProj)
    (g : List String × List (List String)) : List String :=
  ps.map fun p =>
    match p.1 with
    | .col c => evalCol cols (g.2.headD []) c
    | .anyValue c => evalCol cols (g.2.headD []) c
    | .countStar => toString g.2.length

/-- The textual rendering of an expression, used as the output column name
when no usable alias is given. -/
def dedupExprName : DedupExpr → String
  | .col c => c
  | .anyValue c => "any_value(" ++ c ++ ")"
  | .countStar => "count_star()"

/-- Output column names of the dedup projection (alias when present and
non-blank, expression text otherwise, as in the source's
`if alias and alias.strip()`). -/
def dedupOutCols (ps : DedupProj) : List String :=
  ps.map fun p => projOutName (dedupExprName p.1) p.2

/-- Byte-wise string order on character data (the collation DuckDB applies
to varchar values in `ORDER BY`). -/
def strLeB : List Char → List Char → Bool
  | [], _ => true
  | _ :: _, [] => false
  | a :: as, b :: bs =>
    if a.toNat < b.toNat then true
    else if b.toNat < a.toNat then false
    else strLeB as bs

/-- Row order used by `ORDER BY 1 ASC`: compare first values as strings. -/
def rowLe (a b : List String) : Bool :=
  strLeB (a.headD "").data (b.headD "").data

/-- Inserts a row into a row list sorted ascending by first value. -/
def insertSorted (r : List String) : List (List String) → List (List String)
  | [] => [r]
  | x :: xs =>
    if rowLe r x then r :: x :: xs else x :: insertSorted r xs

/-- `ORDER BY 1 ASC` over all-varchar data: sort rows by their first value
in string order (insertion sort; the engine's sorting algorithm is
unspecified, only the ordering key matters). -/
def sortByFirst : List (List String) → List (List String)
  | [] => []
  | r :: rs => insertSorted r (sortByFirst rs)

/-- `unique_keys` (lines 504-586): rejects an empty projection list before
touching the store; otherwise drops `u_{table_name}`, then materializes
`SELECT {projection} FROM {table_name} GROUP BY ALL ORDER BY 1 ASC` into
`u_{table_name}` and returns that name.  Errors after the initial check are
returned together with the store as already mutated. -/
def unique_keys (store : Store) (tableName : String) (ps : DedupProj) :
    Store × Except Err String :=
  if ps.isEmpty then (store, .error .emptyProjection)
  else
    let newName := "u_" ++ tableName
    let s := dropTable store newName
    match lookupTable s tableName with
    | none => (s, .error .missingTable)
    | some t =>
      if dedupBinderOk t.cols ps then
        let outRows := sortByFirst ((groupRows t.cols ps t.rows).map (outputRow t.cols ps))
        match createTable s newName ⟨dedupOutCols ps, outRows⟩ with
        | .error e => (s, .error e)
        | .ok s' => (s', .ok newName)
      else (s, .error .missingColumn)

/-! ### Store lemmas -/

@[simp] theorem lookupTable_nil (n : String) : lookupTable [] n = none := rfl

@[simp] theorem lookupTable_cons (m : String) (t : Table) (s : Store) (n : String) :
    lookupTable ((m, t) :: s) n = if m = n then some t else lookupTable s n := rfl

theorem lookupTable_dropTable (s : Store) (n m : String) :
    lookupTable (dropTable s n) m = if m = n then none else lookupTable s m := by
  induction s with
  | nil => simp [dropTable]
  | cons p s ih =>
    obtain ⟨k, t⟩ := p
    simp only [dropTable]
    by_cases hk : k = n
    · subst hk
      rw [if_pos rfl, ih]
      by_cases hm : m = k
      · simp [hm]
      · simp [hm, Ne.symm hm]
    · rw [if_neg hk]
      by_cases hm : k = m
      · subst hm
        simp [hk]
      · simp [hm, ih]

@[simp] theorem lookupTable_dropTable_self (s : Store) (n : String) :
    lookupTable (dropTable s n) n = none := by
  simp [lookupTable_dropTable]

theorem lookupTable_dropTable_ne (s : Store) {n m : String} (h : m ≠ n) :
    lookupTable (dropTable s n) m = lookupTable s m := by
  simp [lookupTable_dropTable, h]

theorem lookupTable_updateTable (s : Store) (n : String) (t : Table) (m : String) :
    lookupTable (updateTable s n t) m =
      if m = n then (lookupTable s n).map (fun _ => t) else lookupTable s m := by
  induction s with
  | nil => simp [updateTable]
  | cons p s ih =>
    obtain ⟨k, u⟩ := p
    simp only [updateTable]
    by_cases hk : k = n
    · subst hk
      rw [if_pos rfl]
      by_cases hm : m = k
      · subst hm
        simp [ih]
      · simp [Ne.symm hm, hm, ih]
    · rw [if_neg hk]
      by_cases hm : k = m
      · subst hm
        simp [hk, Ne.symm hk]
      · simp [hm, hk, ih]

theorem createTable_ok {s : Store} {n : String} {t : Table} {s' : Store}
    (h : createTable s n t = .ok s') : s' = (n, t) :: s := by
  unfold createTable at h
  by_cases hl : (lookupTable s n).isSome
  · simp [hl] at h
  · simp [hl] at h
    exact h.symm

theorem createTable_of_fresh {s : Store} {n : String} (h : lookupTable s n = none)
    (t : Table) : createTable s n t = .ok ((n, t) :: s) := by
  simp [createTable, h]

/-! ### Claim C6: zero source units -/

/-- C6 counterexample: called on a container with zero source units,
`union_sheets_concurrent` returns without error but creates NO destination
relation at all — the claim asserts a destination relation with zero rows
exists after the call. -/
theorem C6_counterexample :
    union_sheets_concurrent [] [] "t" none 4 (fun _ => 0) [] [] [] = ([], none) ∧
      lookupTable [] "t" = none :=
  ⟨rfl, rfl⟩

/-- C6 (amended): a merge call whose container enumerates zero source units
is a recognized no-op, not a failure: it returns with no error and leaves the
backing store untouched — in particular it creates no destination relation
(not even an empty one). -/
theorem C6_zero_units_noop (store : Store) (tableName : String)
    (proj : Option IngestProj) (w : Int) (msOf : Nat → Nat)
    (consumed doneU late : List Nat) :
    union_sheets_concurrent store [] tableName proj w msOf consumed doneU late
      = (store, none) := by
  simp [union_sheets_concurrent]

/-! ### Claim C5: concurrency bound -/

/-- C5 counterexample: with one sheet and concurrency `0` the call fails
(the pool constructor rejects a non-positive worker count) instead of
behaving as if the concurrency were 1 — the same input with concurrency `1`
completes normally. -/
theorem C5_counterexample :
    (union_sheets_concurrent [] [⟨["x"], [["1"]]⟩] "t" none 0 (fun _ => 0) [0] [] []
        = ([], some .poolInit)) ∧
      (union_sheets_concurrent [] [⟨["x"], [["1"]]⟩] "t" none 1 (fun _ => 0) [0] [] []).2
        = none :=
  ⟨rfl, rfl⟩

/-- C5 (amended): the worker count actually used is
`min(concurrency, number of source units)`, but a concurrency value `<= 0`
is not treated as 1: the call fails with the pool constructor's error after
having dropped the destination table. -/
theorem C5_worker_bound (store : Store) (sheets : List Table) (tableName : String)
    (proj : Option IngestProj) (w : Int) (msOf : Nat → Nat)
    (consumed doneU late : List Nat) :
    effectiveWorkers w sheets.length = min w (sheets.length : Int) ∧
      (w ≤ 0 → sheets ≠ [] →
        union_sheets_concurrent store sheets tableName proj w msOf consumed doneU late
          = (dropTable store tableName, some .poolInit)) := by
  constructor
  · unfold effectiveWorkers
    split <;> omega
  · intro hw hs
    have hne : sheets.isEmpty = false := by
      simpa [List.isEmpty_iff] using hs
    have heff : effectiveWorkers w sheets.length ≤ 0 := by
      unfold effectiveWorkers
      split <;> omega
    simp [union_sheets_concurrent, hne, heff]

/-- C5 witness: the amended bound theorem applied at concurrency `-2` over
one sheet. -/
theorem C5_worker_bound_witness :
    effectiveWorkers (-2) [(⟨["x"], [["1"]]⟩ : Table)].length
        = min (-2) (([(⟨["x"], [["1"]]⟩ : Table)].length : Int)) ∧
      ((-2 : Int) ≤ 0 → [(⟨["x"], [["1"]]⟩ : Table)] ≠ [] →
        union_sheets_concurrent [] [⟨["x"], [["1"]]⟩] "t" none (-2) (fun _ => 0) [0] [] []
          = (dropTable [] "t", some .poolInit)) :=
  C5_worker_bound [] [⟨["x"], [["1"]]⟩] "t" none (-2) (fun _ => 0) [0] [] []

/-! ### Claim C9: empty dedup projection -/

/-- C9: `unique_keys` called with zero projection entries fails with the
empty-projection error before touching the store (so no output table is
created), and with any non-empty projection list that error is never
raised. -/
theorem C9_empty_projection (store : Store) (tableName : String) (ps : DedupProj) :
    (ps = [] → unique_keys store tableName ps = (store, .error .emptyProjection)) ∧
      (ps ≠ [] → (unique_keys store tableName ps).2 ≠ .error .emptyProjection) := by
  constructor
  · intro h
    subst h
    simp [unique_keys]
  · intro h
    have hne : ps.isEmpty = false := by
      simpa [List.isEmpty_iff] using h
    unfold unique_keys
    rw [hne]
    simp only [Bool.false_eq_true, if_false]
    cases hl : lookupTable (dropTable store ("u_" ++ tableName)) tableName with
    | none => simp
    | some t =>
      dsimp only
      by_cases hb : dedupBinderOk t.cols ps = true
      · rw [createTable_of_fresh (lookupTable_dropTable_self store ("u_" ++ tableName))]
        simp [hb]
      · simp [hb]

/-- C9 witness: the theorem applied to an empty and to a singleton
projection list over an empty store. -/
theorem C9_empty_projection_witness :
    unique_keys [] "t" [] = ([], .error .emptyProjection) ∧
      (unique_keys [] "t" [(.col "x", none)]).2 ≠ .error .emptyProjection :=
  ⟨(C9_empty_projection [] "t" []).1 rfl,
   (C9_empty_projection [] "t" [(.col "x", none)]).2 (by decide)⟩

/-! ### Claim C4 counterexample and Claim C3 counterexample -/

/-- C4 counterexample: with projection `[x, y]` (a non-aggregate non-key
entry), `GROUP BY ALL` groups by BOTH columns, so two rows sharing the key
`x = "1"` but differing in `y` both survive — the output does not have one
row per distinct key value. -/
theorem C4_counterexample :
    (unique_keys [("t", ⟨["x", "y"], [["1", "a"], ["1", "b"]]⟩)] "t"
        [(.col "x", none), (.col "y", none)]).2 = .ok "u_t" ∧
      lookupTable (unique_keys [("t", ⟨["x", "y"], [["1", "a"], ["1", "b"]]⟩)] "t"
          [(.col "x", none), (.col "y", none)]).1 "u_t"
        = some ⟨["x", "y"], [["1", "a"], ["1", "b"]]⟩ ∧
      ¬ ([["1", "a"], ["1", "b"]].map (fun r => r.headD "")).Nodup := by
  refine ⟨by decide, by decide, by decide⟩

/-- C3 counterexample: two source units with DIFFERENT column sets (`A`
versus `B`) but equal column counts under the same (absent) projection are
merged silently and positionally under the first unit's column names — the
call succeeds with no schema error of any kind. -/
theorem C3_counterexample :
    union_sheets_concurrent [] [⟨["A"], [["1"]]⟩, ⟨["B"], [["2"]]⟩] "t" none 2
        (fun _ => 0) [0, 1] [] []
      = ([("t", ⟨["A"], [["1"], ["2"]]⟩)], none) := by
  decide

/-! ### Claim C1 counterexample -/

/-- C1 counterexample: sheet 0 fails (missing projected column) while sheet 1
is still in flight; the in-flight worker completes after the failure is
observed, and its staging table survives the cleanup — after the call raises,
the backing store is NOT as it was before the call. -/
theorem C1_counterexample :
    union_sheets_concurrent [] [⟨["y"], [["9"]]⟩, ⟨["x"], [["1"]]⟩] "t"
        (some [("x", none)]) 2 (fun _ => 0) [0] [] [1]
      = ([(tempTableName 1 0, ⟨["x"], [["1"]]⟩)], some .missingColumn) ∧
      lookupTable (union_sheets_concurrent [] [⟨["y"], [["9"]]⟩, ⟨["x"], [["1"]]⟩] "t"
          (some [("x", none)]) 2 (fun _ => 0) [0] [] [1]).1 (tempTableName 1 0)
        = some ⟨["x"], [["1"]]⟩ := by
  refine ⟨by decide, by decide⟩

/-! ### Lemmas about iterated store operations -/

theorem lookupTable_foldl_dropTable_not_mem (names : List String) :
    ∀ (s : Store) (nm : String), nm ∉ names →
      lookupTable (names.foldl dropTable s) nm = lookupTable s nm := by
  induction names with
  | nil => intro s nm _; rfl
  | cons n ns ih =>
    intro s nm h
    have hnn : nm ≠ n := fun he => h (by rw [he]; exact List.mem_cons_self _ _)
    rw [List.foldl_cons, ih _ _ (fun hmem => h (List.mem_cons_of_mem _ hmem)),
      lookupTable_dropTable_ne _ hnn]

theorem lookupTable_foldl_dropTable_mem (names : List String) :
    ∀ (s : Store) (nm : String), nm ∈ names →
      lookupTable (names.foldl dropTable s) nm = none := by
  induction names with
  | nil => intro s nm h; exact absurd h (List.not_mem_nil nm)
  | cons n ns ih =>
    intro s nm h
    rw [List.foldl_cons]
    by_cases hs : nm ∈ ns
    · exact ih _ _ hs
    · have : nm = n := by
        cases List.mem_cons.mp h with
        | inl h => exact h
        | inr h => exact absurd h hs
      subst this
      rw [lookupTable_foldl_dropTable_not_mem _ _ _ hs, lookupTable_dropTable_self]

theorem lookupTable_createPendingTemps (sheets : List Table) (proj : Option IngestProj)
    (msOf : Nat → Nat) (idxs : List Nat) :
    ∀ (s : Store) (nm : String), (∀ j ∈ idxs, tempTableName j (msOf j) ≠ nm) →
      lookupTable (createPendingTemps sheets proj msOf s idxs) nm = lookupTable s nm := by
  induction idxs with
  | nil => intro s nm _; rfl
  | cons j js ih =>
    intro s nm h
    show lookupTable (createPendingTemps sheets proj msOf _ js) nm = _
    rw [ih _ _ (fun k hk => h k (List.mem_cons_of_mem _ hk))]
    cases hst : stageOf sheets proj j with
    | error e => simp [hst]
    | ok tbl =>
      simp only [hst]
      cases hct : createTable s (tempTableName j (msOf j)) tbl with
      | error e => simp
      | ok s' =>
        simp only
        rw [createTable_ok hct]
        simp [h j (List.mem_cons_self _ _)]

theorem abortCall_clean (sheets : List Table) (proj : Option IngestProj) (msOf : Nat → Nat)
    (tableName : String) (doneU late : List Nat) (consumed : List Nat)
    (s : Store) (tempNames : List String) (firstCreated : Bool) (e : Err)
    (h0 : firstCreated = false → lookupTable s tableName = none)
    (hcons : ∀ i ∈ consumed, lookupTable s (tempTableName i (msOf i)) = none)
    (hconsName : ∀ i ∈ consumed, tempTableName i (msOf i) ≠ tableName)
    (hdU : ∀ j ∈ doneU, tempTableName j (msOf j) ≠ tableName ∧
      ∀ i ∈ consumed, tempTableName j (msOf j) ≠ tempTableName i (msOf i))
    (hlate : ∀ j ∈ late, tempTableName j (msOf j) ≠ tableName ∧
      tempTableName j (msOf j) ∉ tempNames ∧
      ∀ i ∈ consumed, tempTableName j (msOf j) ≠ tempTableName i (msOf i)) :
    lookupTable
        (abortCall sheets proj msOf tableName doneU late s tempNames firstCreated e).1
        tableName = none ∧
      (∀ nm ∈ tempNames,
        lookupTable
          (abortCall sheets proj msOf tableName doneU late s tempNames firstCreated e).1
          nm = none) ∧
      (∀ i ∈ consumed,
        lookupTable
          (abortCall sheets proj msOf tableName doneU late s tempNames firstCreated e).1
          (tempTableName i (msOf i)) = none) := by
  unfold abortCall
  dsimp only
  set s1 := createPendingTemps sheets proj msOf s doneU with hs1
  set s2 := List.foldl dropTable s1 tempNames with hs2
  set s3 := if firstCreated = true then dropTable s2 tableName else s2 with hs3
  have hs1tn : lookupTable s1 tableName = lookupTable s tableName := by
    rw [hs1]
    exact lookupTable_createPendingTemps _ _ _ _ _ _ (fun j hj => (hdU j hj).1)
  have hs3tn : lookupTable s3 tableName = none := by
    by_cases hfc : firstCreated = true
    · rw [hs3, if_pos hfc]
      simp
    · rw [hs3, if_neg hfc]
      by_cases hmem : tableName ∈ tempNames
      · exact lookupTable_foldl_dropTable_mem _ _ _ hmem
      · rw [hs2, lookupTable_foldl_dropTable_not_mem _ _ _ hmem, hs1tn,
          h0 (by simpa using hfc)]
  have hs3ne : ∀ nm, nm ≠ tableName → lookupTable s3 nm = lookupTable s2 nm := by
    intro nm hn
    by_cases hfc : firstCreated = true
    · rw [hs3, if_pos hfc, lookupTable_dropTable_ne _ hn]
    · rw [hs3, if_neg hfc]
  refine ⟨?_, ?_, ?_⟩
  · rw [lookupTable_createPendingTemps _ _ _ _ _ _ (fun j hj => (hlate j hj).1)]
    exact hs3tn
  · intro nm hnm
    have hlnm : ∀ j ∈ late, tempTableName j (msOf j) ≠ nm := fun j hj he =>
      (hlate j hj).2.1 (he ▸ hnm)
    rw [lookupTable_createPendingTemps _ _ _ _ _ _ hlnm]
    by_cases hn : nm = tableName
    · rw [hn]
      exact hs3tn
    · rw [hs3ne nm hn]
      exact lookupTable_foldl_dropTable_mem _ _ _ hnm
  · intro i hi
    have hlnm : ∀ j ∈ late, tempTableName j (msOf j) ≠ tempTableName i (msOf i) :=
      fun j hj => (hlate j hj).2.2 i hi
    rw [lookupTable_createPendingTemps _ _ _ _ _ _ hlnm,
      hs3ne _ (hconsName i hi)]
    by_cases hmem : tempTableName i (msOf i) ∈ tempNames
    · exact lookupTable_foldl_dropTable_mem _ _ _ hmem
    · rw [hs2, lookupTable_foldl_dropTable_not_mem _ _ _ hmem, hs1,
        lookupTable_createPendingTemps _ _ _ _ _ _ (fun j hj => (hdU j hj).2 i hi)]
      exact hcons i hi

theorem mergeLoop_abort_clean (sheets : List Table) (proj : Option IngestProj)
    (msOf : Nat → Nat) (tableName : String) (doneU late : List Nat) :
    ∀ (consumed : List Nat) (s : Store) (tempNames : List String) (firstCreated : Bool),
      (firstCreated = false → lookupTable s tableName = none) →
      (∀ i ∈ consumed, lookupTable s (tempTableName i (msOf i)) = none) →
      (∀ i ∈ consumed, tempTableName i (msOf i) ≠ tableName) →
      (consumed.map (fun i => tempTableName i (msOf i))).Nodup →
      (∀ j ∈ doneU, tempTableName j (msOf j) ≠ tableName ∧
        ∀ i ∈ consumed, tempTableName j (msOf j) ≠ tempTableName i (msOf i)) →
      (∀ j ∈ late, tempTableName j (msOf j) ≠ tableName ∧
        tempTableName j (msOf j) ∉ tempNames ∧
        ∀ i ∈ consumed, tempTableName j (msOf j) ≠ tempTableName i (msOf i)) →
      ∀ e,
        (mergeLoop sheets proj msOf tableName doneU late consumed s tempNames
            firstCreated).2 = some e →
        lookupTable
            (mergeLoop sheets proj msOf tableName doneU late consumed s tempNames
              firstCreated).1 tableName = none ∧
          (∀ nm ∈ tempNames,
            lookupTable
              (mergeLoop sheets proj msOf tableName doneU late consumed s tempNames
                firstCreated).1 nm = none) ∧
          (∀ i ∈ consumed,
            lookupTable
              (mergeLoop sheets proj msOf tableName doneU late consumed s tempNames
                firstCreated).1 (tempTableName i (msOf i)) = none) := by
  intro consumed
  induction consumed with
  | nil =>
    intro s tempNames firstCreated _ _ _ _ _ _ e herr
    simp [mergeLoop] at herr
  | cons i rest ih =>
    intro s tempNames firstCreated h0 hcons hconsName hnodup hdU hlate e herr
    have hmem_i : i ∈ i :: rest := List.mem_cons_self _ _
    have hfresh_i := hcons i hmem_i
    rw [List.map_cons, List.nodup_cons] at hnodup
    have hrest_ne : ∀ j ∈ rest, tempTableName i (msOf i) ≠ tempTableName j (msOf j) := by
      intro j hj he
      exact hnodup.1 (he ▸ List.mem_map_of_mem _ hj)
    simp only [mergeLoop] at herr ⊢
    cases hst : stageOf sheets proj i with
    | error eo =>
      rw [hst] at herr
      dsimp only at herr ⊢
      exact abortCall_clean sheets proj msOf tableName doneU late (i :: rest) s tempNames
        firstCreated eo h0 hcons hconsName hdU hlate
    | ok tbl =>
      rw [hst] at herr
      dsimp only at herr ⊢
      rw [createTable_of_fresh hfresh_i] at herr ⊢
      dsimp only at herr ⊢
      -- common facts about the store s1 = (tmp i, tbl) :: s
      have hcons1 : ∀ j ∈ rest,
          lookupTable ((tempTableName i (msOf i), tbl) :: s) (tempTableName j (msOf j))
            = none := by
        intro j hj
        rw [lookupTable_cons, if_neg (hrest_ne j hj)]
        exact hcons j (List.mem_cons_of_mem _ hj)
      have hnodup1 : (rest.map (fun j => tempTableName j (msOf j))).Nodup := hnodup.2
      have hdU1 : ∀ j ∈ doneU, tempTableName j (msOf j) ≠ tableName ∧
          ∀ k ∈ rest, tempTableName j (msOf j) ≠ tempTableName k (msOf k) :=
        fun j hj => ⟨(hdU j hj).1, fun k hk => (hdU j hj).2 k (List.mem_cons_of_mem _ hk)⟩
      have hlate1 : ∀ j ∈ late, tempTableName j (msOf j) ≠ tableName ∧
          tempTableName j (msOf j) ∉ tempNames ++ [tempTableName i (msOf i)] ∧
          ∀ k ∈ rest, tempTableName j (msOf j) ≠ tempTableName k (msOf k) := by
        intro j hj
        refine ⟨(hlate j hj).1, ?_, fun k hk => (hlate j hj).2.2 k (List.mem_cons_of_mem _ hk)⟩
        intro hmem
        rcases List.mem_append.mp hmem with hmem | hmem
        · exact (hlate j hj).2.1 hmem
        · exact (hlate j hj).2.2 i hmem_i (List.mem_singleton.mp hmem)
      -- lifting the conclusion from (tempNames ++ [tmp i], rest) to (tempNames, i :: rest)
      have lift : ∀ S : Store,
          (lookupTable S tableName = none ∧
            (∀ nm ∈ tempNames ++ [tempTableName i (msOf i)], lookupTable S nm = none) ∧
            (∀ j ∈ rest, lookupTable S (tempTableName j (msOf j)) = none)) →
          lookupTable S tableName = none ∧
            (∀ nm ∈ tempNames, lookupTable S nm = none) ∧
            (∀ j ∈ i :: rest, lookupTable S (tempTableName j (msOf j)) = none) := by
        intro S h
        refine ⟨h.1, fun nm hnm => h.2.1 nm (List.mem_append_left _ hnm), ?_⟩
        intro j hj
        rcases List.mem_cons.mp hj with hj | hj
        · subst hj
          exact h.2.1 _ (List.mem_append_right _ (List.mem_singleton_self _))
        · exact h.2.2 j hj
      cases firstCreated with
      | true =>
        simp only [if_pos] at herr ⊢
        cases hins : insertFromTemp ((tempTableName i (msOf i), tbl) :: s) tableName
            (tempTableName i (msOf i)) with
        | error eo =>
          dsimp only at herr ⊢
          exact lift _ (abortCall_clean sheets proj msOf tableName doneU late rest _ _
            true eo (by simp) hcons1
            (fun j hj => hconsName j (List.mem_cons_of_mem _ hj)) hdU1 hlate1)
        | ok s2 =>
          rw [hins] at herr
          dsimp only at herr ⊢
          have hs2form : ∀ nm, nm ≠ tableName →
              lookupTable s2 nm
                = lookupTable ((tempTableName i (msOf i), tbl) :: s) nm := by
            intro nm hnm
            unfold insertFromTemp at hins
            rw [lookupTable_cons, if_pos rfl] at hins
            dsimp only at hins
            unfold insertRows at hins
            cases hlk : lookupTable ((tempTableName i (msOf i), tbl) :: s) tableName with
            | none =>
              rw [hlk] at hins
              dsimp only at hins
              exact absurd hins (by simp)
            | some d =>
              rw [hlk] at hins
              dsimp only at hins
              by_cases har : d.cols.length = tbl.cols.length
              · rw [if_pos har] at hins
                injection hins with h2
                rw [← h2, lookupTable_updateTable, if_neg hnm]
              · rw [if_neg har] at hins
                exact absurd hins (by simp)
          refine lift _ (ih s2 (tempNames ++ [tempTableName i (msOf i)]) true
            (by simp) ?_ (fun j hj => hconsName j (List.mem_cons_of_mem _ hj))
            hnodup1 hdU1 hlate1 e herr)
          intro j hj
          rw [hs2form _ (hconsName j (List.mem_cons_of_mem _ hj))]
          exact hcons1 j hj
      | false =>
        simp only [Bool.false_eq_true, if_false] at herr ⊢
        have hcf : createFromTemp ((tempTableName i (msOf i), tbl) :: s) tableName
            (tempTableName i (msOf i))
            = .ok ((tableName, tbl) :: (tempTableName i (msOf i), tbl) :: s) := by
          unfold createFromTemp
          rw [lookupTable_cons, if_pos rfl]
          dsimp only
          apply createTable_of_fresh
          rw [lookupTable_cons, if_neg (hconsName i hmem_i)]
          exact h0 rfl
        rw [hcf] at herr ⊢
        dsimp only at herr ⊢
        refine lift _ (ih ((tableName, tbl) :: (tempTableName i (msOf i), tbl) :: s)
          (tempNames ++ [tempTableName i (msOf i)]) true (by simp) ?_
          (fun j hj => hconsName j (List.mem_cons_of_mem _ hj)) hnodup1 hdU1 hlate1 e herr)
        intro j hj
        rw [lookupTable_cons, if_neg (Ne.symm (hconsName j (List.mem_cons_of_mem _ hj)))]
        exact hcons1 j hj

theorem mergeLoop_success (sheets : List Table) (proj : Option IngestProj)
    (msOf : Nat → Nat) (tableName : String) (doneU late : List Nat) (ts : Nat → Table) :
    ∀ (consumed : List Nat) (s : Store) (tempNames : List String) (d : Table),
      (∀ i ∈ consumed, stageOf sheets proj i = .ok (ts i)) →
      (∀ i ∈ consumed, (ts i).cols.length = d.cols.length) →
      lookupTable s tableName = some d →
      (∀ i ∈ consumed, lookupTable s (tempTableName i (msOf i)) = none) →
      (consumed.map (fun i => tempTableName i (msOf i))).Nodup →
      (∀ i ∈ consumed, tempTableName i (msOf i) ≠ tableName) →
      tableName ∉ tempNames →
      ∃ s', mergeLoop sheets proj msOf tableName doneU late consumed s tempNames true
          = (s', none) ∧
        lookupTable s' tableName
          = some ⟨d.cols, d.rows ++ (consumed.map (fun i => (ts i).rows)).flatten⟩ := by
  intro consumed
  induction consumed with
  | nil =>
    intro s tempNames d _ _ hd _ _ _ htn
    refine ⟨tempNames.foldl dropTable s, rfl, ?_⟩
    rw [lookupTable_foldl_dropTable_not_mem _ _ _ htn, hd]
    simp
  | cons i rest ih =>
    intro s tempNames d hstage harity hd hcons hnodup hname htn
    rw [List.map_cons, List.nodup_cons] at hnodup
    have hmem_i := List.mem_cons_self i rest
    simp only [mergeLoop]
    rw [hstage i hmem_i]
    dsimp only
    rw [createTable_of_fresh (hcons i hmem_i)]
    dsimp only
    simp only [if_pos]
    have hins : insertFromTemp ((tempTableName i (msOf i), ts i) :: s) tableName
        (tempTableName i (msOf i))
        = .ok (updateTable ((tempTableName i (msOf i), ts i) :: s) tableName
            ⟨d.cols, d.rows ++ (ts i).rows⟩) := by
      unfold insertFromTemp
      rw [lookupTable_cons, if_pos rfl]
      dsimp only
      unfold insertRows
      rw [lookupTable_cons, if_neg (hname i hmem_i), hd]
      dsimp only
      rw [if_pos (harity i hmem_i).symm]
    rw [hins]
    dsimp only
    have hd2 : lookupTable
        (updateTable ((tempTableName i (msOf i), ts i) :: s) tableName
          ⟨d.cols, d.rows ++ (ts i).rows⟩) tableName
        = some ⟨d.cols, d.rows ++ (ts i).rows⟩ := by
      rw [lookupTable_updateTable, if_pos rfl, lookupTable_cons,
        if_neg (hname i hmem_i), hd]
      rfl
    obtain ⟨s', hs', hlook⟩ := ih
      (updateTable ((tempTableName i (msOf i), ts i) :: s) tableName
        ⟨d.cols, d.rows ++ (ts i).rows⟩)
      (tempNames ++ [tempTableName i (msOf i)]) ⟨d.cols, d.rows ++ (ts i).rows⟩
      (fun j hj => hstage j (List.mem_cons_of_mem _ hj))
      (fun j hj => harity j (List.mem_cons_of_mem _ hj))
      hd2
      (by
        intro j hj
        have hne1 : tempTableName j (msOf j) ≠ tableName :=
          hname j (List.mem_cons_of_mem _ hj)
        have hne2 : tempTableName i (msOf i) ≠ tempTableName j (msOf j) := by
          intro he
          exact hnodup.1 (he ▸ List.mem_map_of_mem _ hj)
        rw [lookupTable_updateTable, if_neg hne1, lookupTable_cons, if_neg hne2]
        exact hcons j (List.mem_cons_of_mem _ hj))
      hnodup.2
      (fun j hj => hname j (List.mem_cons_of_mem _ hj))
      (by
        intro hmem
        rcases List.mem_append.mp hmem with hmem | hmem
        · exact htn hmem
        · exact hname i hmem_i (List.mem_singleton.mp hmem).symm)
    refine ⟨s', hs', ?_⟩
    rw [hlook]
    simp [List.append_assoc]

theorem usc_first_step (store : Store) (sheets : List Table) (tableName : String)
    (proj : Option IngestProj) (maxWorkers : Int) (msOf : Nat → Nat) (ts : Nat → Table)
    (c0 : Nat) (rest doneU late : List Nat)
    (hmw : 1 ≤ maxWorkers)
    (hstage0 : stageOf sheets proj c0 = .ok (ts c0))
    (hfresh0 : lookupTable store (tempTableName c0 (msOf c0)) = none)
    (hname0 : tempTableName c0 (msOf c0) ≠ tableName) :
    union_sheets_concurrent store sheets tableName proj maxWorkers msOf (c0 :: rest)
        doneU late
      = mergeLoop sheets proj msOf tableName doneU late rest
          ((tableName, ts c0) :: (tempTableName c0 (msOf c0), ts c0) ::
            dropTable store tableName)
          [tempTableName c0 (msOf c0)] true := by
  have hne : sheets.isEmpty = false := by
    cases sheets with
    | nil => simp [stageOf] at hstage0
    | cons a l => rfl
  have hlen : 1 ≤ sheets.length := by
    cases sheets with
    | nil => simp at hne
    | cons a l => simp
  have hw : ¬ effectiveWorkers maxWorkers sheets.length ≤ 0 := by
    unfold effectiveWorkers
    split <;> omega
  unfold union_sheets_concurrent
  rw [hne]
  dsimp only
  rw [if_neg hw]
  simp only [mergeLoop]
  rw [hstage0]
  dsimp only
  have hfr : lookupTable (dropTable store tableName) (tempTableName c0 (msOf c0))
      = none := by
    rw [lookupTable_dropTable_ne _ hname0]
    exact hfresh0
  rw [createTable_of_fresh hfr]
  dsimp only
  simp only [Bool.false_eq_true, if_false]
  have hcf : createFromTemp
      ((tempTableName c0 (msOf c0), ts c0) :: dropTable store tableName) tableName
      (tempTableName c0 (msOf c0))
      = .ok ((tableName, ts c0) :: (tempTableName c0 (msOf c0), ts c0) ::
          dropTable store tableName) := by
    unfold createFromTemp
    rw [lookupTable_cons, if_pos rfl]
    dsimp only
    apply createTable_of_fresh
    rw [lookupTable_cons, if_neg hname0]
    exact lookupTable_dropTable_self store tableName
  rw [hcf]
  rfl

theorem usc_success (store : Store) (sheets : List Table) (tableName : String)
    (proj : Option IngestProj) (maxWorkers : Int) (msOf : Nat → Nat) (ts : Nat → Table)
    (c0 : Nat) (rest doneU late : List Nat)
    (hmw : 1 ≤ maxWorkers)
    (hstage : ∀ i ∈ c0 :: rest, stageOf sheets proj i = .ok (ts i))
    (harity : ∀ i ∈ c0 :: rest, (ts i).cols.length = (ts c0).cols.length)
    (hfresh : ∀ i ∈ c0 :: rest, lookupTable store (tempTableName i (msOf i)) = none)
    (hnodup : ((c0 :: rest).map (fun i => tempTableName i (msOf i))).Nodup)
    (hname : ∀ i ∈ c0 :: rest, tempTableName i (msOf i) ≠ tableName) :
    ∃ s', union_sheets_concurrent store sheets tableName proj maxWorkers msOf
        (c0 :: rest) doneU late = (s', none) ∧
      lookupTable s' tableName
        = some ⟨(ts c0).cols, ((c0 :: rest).map (fun i => (ts i).rows)).flatten⟩ := by
  have hmem0 := List.mem_cons_self c0 rest
  rw [usc_first_step store sheets tableName proj maxWorkers msOf ts c0 rest doneU late
    hmw (hstage c0 hmem0) (hfresh c0 hmem0) (hname c0 hmem0)]
  rw [List.map_cons, List.nodup_cons] at hnodup
  obtain ⟨s', hs', hlook⟩ := mergeLoop_success sheets proj msOf tableName doneU late ts
    rest
    ((tableName, ts c0) :: (tempTableName c0 (msOf c0), ts c0) ::
      dropTable store tableName)
    [tempTableName c0 (msOf c0)] (ts c0)
    (fun j hj => hstage j (List.mem_cons_of_mem _ hj))
    (fun j hj => harity j (List.mem_cons_of_mem _ hj))
    (by rw [lookupTable_cons, if_pos rfl])
    (by
      intro j hj
      have hne1 : tableName ≠ tempTableName j (msOf j) :=
        Ne.symm (hname j (List.mem_cons_of_mem _ hj))
      have hne2 : tempTableName c0 (msOf c0) ≠ tempTableName j (msOf j) := by
        intro he
        exact hnodup.1 (he ▸ List.mem_map_of_mem _ hj)
      rw [lookupTable_cons, if_neg hne1, lookupTable_cons, if_neg hne2,
        lookupTable_dropTable_ne _ (hname j (List.mem_cons_of_mem _ hj))]
      exact hfresh j (List.mem_cons_of_mem _ hj))
    hnodup.2
    (fun j hj => hname j (List.mem_cons_of_mem _ hj))
    (by
      intro hmem
      exact hname c0 hmem0 (List.mem_singleton.mp hmem).symm)
  refine ⟨s', hs', ?_⟩
  rw [hlook]
  simp

/-! ### Claim C1 (amended) and Claim C2 -/

/-- C1 (amended): when a call to `union_sheets_concurrent` raises, every
staging table the coordinator had consumed and the destination table named
`table_name` are absent from the store afterwards — but only those: staging
tables of unconsumed or still-in-flight tasks may survive (see the
counterexample), and a pre-existing destination table is dropped, not
restored. -/
theorem C1_abort_cleanup (store : Store) (sheets : List Table) (tableName : String)
    (proj : Option IngestProj) (maxWorkers : Int) (msOf : Nat → Nat)
    (consumed doneU late : List Nat)
    (hfresh : ∀ i ∈ consumed, lookupTable store (tempTableName i (msOf i)) = none)
    (hnames : ∀ i ∈ consumed ++ doneU ++ late, tempTableName i (msOf i) ≠ tableName)
    (hnodup : ((consumed ++ doneU ++ late).map (fun i => tempTableName i (msOf i))).Nodup)
    (e : Err)
    (herr : (union_sheets_concurrent store sheets tableName proj maxWorkers msOf
        consumed doneU late).2 = some e) :
    lookupTable (union_sheets_concurrent store sheets tableName proj maxWorkers msOf
        consumed doneU late).1 tableName = none ∧
      ∀ i ∈ consumed,
        lookupTable (union_sheets_concurrent store sheets tableName proj maxWorkers msOf
            consumed doneU late).1 (tempTableName i (msOf i)) = none := by
  have hconsName : ∀ i ∈ consumed, tempTableName i (msOf i) ≠ tableName :=
    fun i hi => hnames i (List.mem_append_left _ (List.mem_append_left _ hi))
  rw [List.map_append, List.map_append, List.nodup_append] at hnodup
  obtain ⟨hnodCD, hnodL, hdisj1⟩ := hnodup
  rw [List.nodup_append] at hnodCD
  obtain ⟨hnodC, hnodD, hdisj2⟩ := hnodCD
  have hdU : ∀ j ∈ doneU, tempTableName j (msOf j) ≠ tableName ∧
      ∀ i ∈ consumed, tempTableName j (msOf j) ≠ tempTableName i (msOf i) := by
    intro j hj
    refine ⟨hnames j (List.mem_append_left _ (List.mem_append_right _ hj)), ?_⟩
    intro i hi he
    exact hdisj2 (List.mem_map_of_mem _ hi)
      (by
        rw [← he]
        exact List.mem_map_of_mem _ hj)
  have hlate : ∀ j ∈ late, tempTableName j (msOf j) ≠ tableName ∧
      tempTableName j (msOf j) ∉ ([] : List String) ∧
      ∀ i ∈ consumed, tempTableName j (msOf j) ≠ tempTableName i (msOf i) := by
    intro j hj
    refine ⟨hnames j (List.mem_append_right _ hj), List.not_mem_nil _, ?_⟩
    intro i hi he
    exact hdisj1 (List.mem_append_left _ (List.mem_map_of_mem _ hi))
      (by
        rw [← he]
        exact List.mem_map_of_mem _ hj)
  unfold union_sheets_concurrent at herr ⊢
  by_cases hemp : sheets.isEmpty = true
  · rw [hemp] at herr
    simp at herr
  · rw [Bool.not_eq_true] at hemp
    rw [hemp] at herr ⊢
    simp only [Bool.false_eq_true, if_false] at herr ⊢
    by_cases hw : effectiveWorkers maxWorkers sheets.length ≤ 0
    · rw [if_pos hw] at herr ⊢
      refine ⟨lookupTable_dropTable_self store tableName, ?_⟩
      intro i hi
      rw [lookupTable_dropTable_ne _ (hconsName i hi)]
      exact hfresh i hi
    · rw [if_neg hw] at herr ⊢
      have hcons0 : ∀ i ∈ consumed,
          lookupTable (dropTable store tableName) (tempTableName i (msOf i)) = none := by
        intro i hi
        rw [lookupTable_dropTable_ne _ (hconsName i hi)]
        exact hfresh i hi
      obtain ⟨h1, _, h3⟩ := mergeLoop_abort_clean sheets proj msOf tableName doneU late
        consumed (dropTable store tableName) [] false
        (fun _ => lookupTable_dropTable_self store tableName)
        hcons0 hconsName hnodC hdU hlate e herr
      exact ⟨h1, h3⟩

/-- C1 witness: the amended cleanup theorem applied to the two-sheet run in
which sheet 0 fails and sheet 1 finishes late. -/
theorem C1_abort_cleanup_witness :
    lookupTable (union_sheets_concurrent [] [⟨["y"], [["9"]]⟩, ⟨["x"], [["1"]]⟩] "t"
        (some [("x", none)]) 2 (fun _ => 0) [0] [] [1]).1 "t" = none ∧
      ∀ i ∈ [0],
        lookupTable (union_sheets_concurrent [] [⟨["y"], [["9"]]⟩, ⟨["x"], [["1"]]⟩] "t"
            (some [("x", none)]) 2 (fun _ => 0) [0] [] [1]).1
          (tempTableName i ((fun _ => 0) i)) = none :=
  C1_abort_cleanup [] [⟨["y"], [["9"]]⟩, ⟨["x"], [["1"]]⟩] "t" (some [("x", none)]) 2
    (fun _ => 0) [0] [] [1] (by decide) (by decide) (by decide) .missingColumn (by decide)

/-- C2: when every per-sheet task succeeds (and the projected sheets agree in
column count, as the spec's same-schema premise requires), the concurrent
merge succeeds in any completion order, and the destination table's row count
is the sum over all sheets of that sheet's row count after projection. -/
theorem C2_completeness (store : Store) (sheets : List Table) (tableName : String)
    (proj : Option IngestProj) (maxWorkers : Int) (msOf : Nat → Nat)
    (consumed doneU late : List Nat) (ts : Nat → Table)
    (hmw : 1 ≤ maxWorkers)
    (hne : sheets ≠ [])
    (hperm : consumed.Perm (List.range sheets.length))
    (hstage : ∀ i ∈ consumed, stageOf sheets proj i = .ok (ts i))
    (harity : ∀ i ∈ consumed, ∀ j ∈ consumed, (ts i).cols.length = (ts j).cols.length)
    (hfresh : ∀ i ∈ consumed, lookupTable store (tempTableName i (msOf i)) = none)
    (hnodup : (consumed.map (fun i => tempTableName i (msOf i))).Nodup)
    (hname : ∀ i ∈ consumed, tempTableName i (msOf i) ≠ tableName) :
    ∃ s' d, union_sheets_concurrent store sheets tableName proj maxWorkers msOf
        consumed doneU late = (s', none) ∧
      lookupTable s' tableName = some d ∧
      d.rows.length
        = ((List.range sheets.length).map (fun i => (ts i).rows.length)).sum := by
  cases hc : consumed with
  | nil =>
    exfalso
    have hlen := hperm.length_eq
    rw [hc] at hlen
    simp [List.length_range] at hlen
    exact hne (List.eq_nil_of_length_eq_zero hlen.symm)
  | cons c0 rest =>
    subst hc
    obtain ⟨s', hs', hlook⟩ := usc_success store sheets tableName proj maxWorkers msOf ts
      c0 rest doneU late hmw hstage
      (fun i hi => harity i hi c0 (List.mem_cons_self _ _))
      hfresh hnodup hname
    refine ⟨s', _, hs', hlook, ?_⟩
    have h1 : (((c0 :: rest).map (fun i => (ts i).rows)).flatten).length
        = ((c0 :: rest).map (fun i => (ts i).rows.length)).sum := by
      rw [List.length_flatten, List.map_map]
      rfl
    dsimp only
    rw [h1]
    exact List.Perm.sum_eq (hperm.map (fun i => (ts i).rows.length))

/-- C2 witness: the completeness theorem applied to two one-column sheets
with 2 and 1 rows, consumed out of submission order, yielding 3 rows. -/
theorem C2_completeness_witness :
    ∃ s' d, union_sheets_concurrent [] [⟨["A"], [["1"], ["2"]]⟩, ⟨["A"], [["3"]]⟩] "t"
        none 2 (fun _ => 0) [1, 0] [] [] = (s', none) ∧
      lookupTable s' "t" = some d ∧
      d.rows.length
        = ((List.range [(⟨["A"], [["1"], ["2"]]⟩ : Table), ⟨["A"], [["3"]]⟩].length).map
            (fun i => (([(⟨["A"], [["1"], ["2"]]⟩ : Table), ⟨["A"], [["3"]]⟩].getD i
              ⟨[], []⟩) |>.rows.length))).sum :=
  C2_completeness [] [⟨["A"], [["1"], ["2"]]⟩, ⟨["A"], [["3"]]⟩] "t" none 2 (fun _ => 0)
    [1, 0] [] []
    (fun i => [(⟨["A"], [["1"], ["2"]]⟩ : Table), ⟨["A"], [["3"]]⟩].getD i ⟨[], []⟩)
    (by decide) (by decide) (by decide) (by decide) (by decide) (by decide) (by decide)
    (by decide)

/-! ### Claim C3 (amended) -/

theorem mergeLoop_mismatch (sheets : List Table) (proj : Option IngestProj)
    (msOf : Nat → Nat) (tableName : String) (doneU late : List Nat) (ts : Nat → Table) :
    ∀ (consumed : List Nat) (s : Store) (tempNames : List String) (d : Table),
      (∀ i ∈ consumed, stageOf sheets proj i = .ok (ts i)) →
      lookupTable s tableName = some d →
      (∀ i ∈ consumed, lookupTable s (tempTableName i (msOf i)) = none) →
      (consumed.map (fun i => tempTableName i (msOf i))).Nodup →
      (∀ i ∈ consumed, tempTableName i (msOf i) ≠ tableName) →
      (∃ j ∈ consumed, (ts j).cols.length ≠ d.cols.length) →
      ((mergeLoop sheets proj msOf tableName doneU late consumed s tempNames
          true).2).isSome = true := by
  intro consumed
  induction consumed with
  | nil =>
    intro s tempNames d _ _ _ _ _ hex
    simp at hex
  | cons i rest ih =>
    intro s tempNames d hstage hd hcons hnodup hname hex
    rw [List.map_cons, List.nodup_cons] at hnodup
    have hmem_i := List.mem_cons_self i rest
    simp only [mergeLoop]
    rw [hstage i hmem_i]
    dsimp only
    rw [createTable_of_fresh (hcons i hmem_i)]
    dsimp only
    simp only [if_pos]
    by_cases har : d.cols.length = (ts i).cols.length
    · have hins : insertFromTemp ((tempTableName i (msOf i), ts i) :: s) tableName
          (tempTableName i (msOf i))
          = .ok (updateTable ((tempTableName i (msOf i), ts i) :: s) tableName
              ⟨d.cols, d.rows ++ (ts i).rows⟩) := by
        unfold insertFromTemp
        rw [lookupTable_cons, if_pos rfl]
        dsimp only
        unfold insertRows
        rw [lookupTable_cons, if_neg (hname i hmem_i), hd]
        dsimp only
        rw [if_pos har]
      rw [hins]
      dsimp only
      obtain ⟨j, hj, hjne⟩ := hex
      have hjrest : j ∈ rest := by
        rcases List.mem_cons.mp hj with hj0 | hj0
        · exfalso
          rw [hj0] at hjne
          exact hjne har.symm
        · exact hj0
      apply ih
      · exact fun k hk => hstage k (List.mem_cons_of_mem _ hk)
      · rw [lookupTable_updateTable, if_pos rfl, lookupTable_cons,
          if_neg (hname i hmem_i), hd]
        rfl
      · intro k hk
        have hne1 : tempTableName k (msOf k) ≠ tableName :=
          hname k (List.mem_cons_of_mem _ hk)
        have hne2 : tempTableName i (msOf i) ≠ tempTableName k (msOf k) := by
          intro he
          exact hnodup.1 (he ▸ List.mem_map_of_mem _ hk)
        rw [lookupTable_updateTable, if_neg hne1, lookupTable_cons, if_neg hne2]
        exact hcons k (List.mem_cons_of_mem _ hk)
      · exact hnodup.2
      · exact fun k hk => hname k (List.mem_cons_of_mem _ hk)
      · exact ⟨j, hjrest, hjne⟩
    · have hins : insertFromTemp ((tempTableName i (msOf i), ts i) :: s) tableName
          (tempTableName i (msOf i)) = .error .arityMismatch := by
        unfold insertFromTemp
        rw [lookupTable_cons, if_pos rfl]
        dsimp only
        unfold insertRows
        rw [lookupTable_cons, if_neg (hname i hmem_i), hd]
        dsimp only
        rw [if_neg har]
      rw [hins]
      dsimp only
      simp [abortCall]

/-- C3 (amended): the coordinator never compares schemas. Two units whose
projected column sets have EQUAL size are always merged without any error —
even when the column names differ, the rows are combined positionally under
the first completed unit's names (see the counterexample).  Only a unit whose
projected column COUNT differs from the first completed unit's makes the call
fail, and the error is the positional insert's arity error, not a dedicated
SchemaMismatchError. -/
theorem C3_schema (store : Store) (sheets : List Table) (tableName : String)
    (proj : Option IngestProj) (maxWorkers : Int) (msOf : Nat → Nat)
    (c0 : Nat) (rest doneU late : List Nat) (ts : Nat → Table)
    (hmw : 1 ≤ maxWorkers)
    (hstage : ∀ i ∈ c0 :: rest, stageOf sheets proj i = .ok (ts i))
    (hfresh : ∀ i ∈ c0 :: rest, lookupTable store (tempTableName i (msOf i)) = none)
    (hnodup : ((c0 :: rest).map (fun i => tempTableName i (msOf i))).Nodup)
    (hname : ∀ i ∈ c0 :: rest, tempTableName i (msOf i) ≠ tableName) :
    ((∀ i ∈ c0 :: rest, (ts i).cols.length = (ts c0).cols.length) →
      (union_sheets_concurrent store sheets tableName proj maxWorkers msOf (c0 :: rest)
          doneU late).2 = none) ∧
      (∀ j ∈ c0 :: rest, (ts j).cols.length ≠ (ts c0).cols.length →
        ((union_sheets_concurrent store sheets tableName proj maxWorkers msOf (c0 :: rest)
            doneU late).2).isSome = true) := by
  have hmem0 := List.mem_cons_self c0 rest
  constructor
  · intro harity
    obtain ⟨s', hs', _⟩ := usc_success store sheets tableName proj maxWorkers msOf ts
      c0 rest doneU late hmw hstage harity hfresh hnodup hname
    rw [hs']
  · intro j hj hjne
    rw [usc_first_step store sheets tableName proj maxWorkers msOf ts c0 rest doneU late
      hmw (hstage c0 hmem0) (hfresh c0 hmem0) (hname c0 hmem0)]
    rw [List.map_cons, List.nodup_cons] at hnodup
    have hjrest : j ∈ rest := by
      rcases List.mem_cons.mp hj with hj0 | hj0
      · exact absurd rfl (hj0 ▸ hjne)
      · exact hj0
    apply mergeLoop_mismatch sheets proj msOf tableName doneU late ts rest
      _ [tempTableName c0 (msOf c0)] (ts c0)
    · exact fun k hk => hstage k (List.mem_cons_of_mem _ hk)
    · rw [lookupTable_cons, if_pos rfl]
    · intro k hk
      have hne1 : tableName ≠ tempTableName k (msOf k) :=
        Ne.symm (hname k (List.mem_cons_of_mem _ hk))
      have hne2 : tempTableName c0 (msOf c0) ≠ tempTableName k (msOf k) := by
        intro he
        exact hnodup.1 (he ▸ List.mem_map_of_mem _ hk)
      rw [lookupTable_cons, if_neg hne1, lookupTable_cons, if_neg hne2,
        lookupTable_dropTable_ne _ (hname k (List.mem_cons_of_mem _ hk))]
      exact hfresh k (List.mem_cons_of_mem _ hk)
    · exact hnodup.2
    · exact fun k hk => hname k (List.mem_cons_of_mem _ hk)
    · exact ⟨j, hjrest, hjne⟩

/-- C3 witness: the amended schema theorem applied to an equal-arity run
(columns `A` versus `B`, silently merged) and to a run whose second unit has
two columns against one (aborted). -/
theorem C3_schema_witness :
    (union_sheets_concurrent [] [⟨["A"], [["1"]]⟩, ⟨["B"], [["2"]]⟩] "t2" none 2
        (fun _ => 0) [0, 1] [] []).2 = none ∧
      ((union_sheets_concurrent [] [⟨["A"], [["1"]]⟩, ⟨["x", "y"], [["2", "3"]]⟩] "t2"
          none 2 (fun _ => 0) [0, 1] [] []).2).isSome = true :=
  ⟨(C3_schema [] [⟨["A"], [["1"]]⟩, ⟨["B"], [["2"]]⟩] "t2" none 2 (fun _ => 0) 0 [1] [] []
      (fun i => [(⟨["A"], [["1"]]⟩ : Table), ⟨["B"], [["2"]]⟩].getD i ⟨[], []⟩)
      (by decide) (by decide) (by decide) (by decide) (by decide)).1 (by decide),
   (C3_schema [] [⟨["A"], [["1"]]⟩, ⟨["x", "y"], [["2", "3"]]⟩] "t2" none 2 (fun _ => 0)
      0 [1] [] []
      (fun i => [(⟨["A"], [["1"]]⟩ : Table), ⟨["x", "y"], [["2", "3"]]⟩].getD i ⟨[], []⟩)
      (by decide) (by decide) (by decide) (by decide) (by decide)).2 1 (by decide)
      (by decide)⟩

/-! ### Claim C10: the two sequential strategies and the concurrent merge -/

theorem projectAll_length (proj : Option IngestProj) :
    ∀ (sheets ts : List Table), projectAll proj sheets = .ok ts →
      sheets.length = ts.length := by
  intro sheets
  induction sheets with
  | nil =>
    intro ts h
    unfold projectAll at h
    injection h with h
    rw [← h]
  | cons sh rest ih =>
    intro ts h
    unfold projectAll at h
    cases hp : projectTable proj sh with
    | error e => rw [hp] at h; exact absurd h (by simp)
    | ok t =>
      rw [hp] at h
      dsimp only at h
      cases hr : projectAll proj rest with
      | error e => rw [hr] at h; exact absurd h (by simp)
      | ok ts' =>
        rw [hr] at h
        dsimp only at h
        injection h with h
        rw [← h, List.length_cons, List.length_cons, ih ts' hr]

theorem projectAll_stageOf (proj : Option IngestProj) :
    ∀ (sheets ts : List Table), projectAll proj sheets = .ok ts →
      ∀ i u, ts[i]? = some u → stageOf sheets proj i = .ok u := by
  intro sheets
  induction sheets with
  | nil =>
    intro ts h i u hu
    unfold projectAll at h
    injection h with h
    rw [← h] at hu
    simp at hu
  | cons sh rest ih =>
    intro ts h i u hu
    unfold projectAll at h
    cases hp : projectTable proj sh with
    | error e => rw [hp] at h; exact absurd h (by simp)
    | ok t =>
      rw [hp] at h
      dsimp only at h
      cases hr : projectAll proj rest with
      | error e => rw [hr] at h; exact absurd h (by simp)
      | ok ts' =>
        rw [hr] at h
        dsimp only at h
        injection h with h
        rw [← h] at hu
        cases i with
        | zero =>
          rw [List.getElem?_cons_zero] at hu
          injection hu with hu
          unfold stageOf
          rw [List.getElem?_cons_zero]
          dsimp only
          rw [hp, hu]
        | succ i =>
          rw [List.getElem?_cons_succ] at hu
          unfold stageOf
          rw [List.getElem?_cons_succ]
          exact ih ts' hr i u hu

theorem batchInsertGo_success (proj : Option IngestProj) (tableName : String) :
    ∀ (sheets ts : List Table) (s : Store) (d : Table),
      projectAll proj sheets = .ok ts →
      (∀ u ∈ ts, u.cols.length = d.cols.length) →
      lookupTable s tableName = some d →
      ∃ s', batchInsertGo proj tableName sheets s true = (s', none) ∧
        lookupTable s' tableName = some ⟨d.cols, d.rows ++ (ts.map Table.rows).flatten⟩ := by
  intro sheets
  induction sheets with
  | nil =>
    intro ts s d h _ hd
    unfold projectAll at h
    injection h with h
    refine ⟨s, rfl, ?_⟩
    rw [hd, ← h]
    simp
  | cons sh rest ih =>
    intro ts s d h harity hd
    unfold projectAll at h
    cases hp : projectTable proj sh with
    | error e => rw [hp] at h; exact absurd h (by simp)
    | ok t =>
      rw [hp] at h
      dsimp only at h
      cases hr : projectAll proj rest with
      | error e => rw [hr] at h; exact absurd h (by simp)
      | ok ts' =>
        rw [hr] at h
        dsimp only at h
        injection h with h
        simp only [batchInsertGo]
        rw [hp]
        dsimp only
        simp only [if_pos]
        have hart : t.cols.length = d.cols.length := by
          apply harity
          rw [← h]
          exact List.mem_cons_self _ _
        have hins : insertRows s tableName t
            = .ok (updateTable s tableName ⟨d.cols, d.rows ++ t.rows⟩) := by
          unfold insertRows
          rw [hd]
          dsimp only
          rw [if_pos hart.symm]
        rw [hins]
        dsimp only
        obtain ⟨s', hs', hlook⟩ := ih ts' (updateTable s tableName ⟨d.cols, d.rows ++ t.rows⟩)
          ⟨d.cols, d.rows ++ t.rows⟩ hr
          (by
            intro u hu
            apply harity
            rw [← h]
            exact List.mem_cons_of_mem _ hu)
          (by
            rw [lookupTable_updateTable, if_pos rfl, hd]
            rfl)
        refine ⟨s', hs', ?_⟩
        rw [hlook, ← h]
        simp [List.append_assoc]

theorem union_sheets_success (store : Store) (sheets : List Table) (tableName : String)
    (proj : Option IngestProj) (t0 : Table) (trest : List Table)
    (hts : projectAll proj sheets = .ok (t0 :: trest))
    (harity : ∀ u ∈ t0 :: trest, u.cols.length = t0.cols.length) :
    ∃ s', union_sheets store sheets tableName proj = (s', none) ∧
      lookupTable s' tableName
        = some ⟨t0.cols, ((t0 :: trest).map Table.rows).flatten⟩ := by
  cases sheets with
  | nil =>
    exfalso
    unfold projectAll at hts
    injection hts with hts
    exact absurd hts (by simp)
  | cons sh0 shrest =>
    have hne : (sh0 :: shrest).isEmpty = false := rfl
    unfold projectAll at hts
    cases hp : projectTable proj sh0 with
    | error e => rw [hp] at hts; exact absurd hts (by simp)
    | ok t =>
      rw [hp] at hts
      dsimp only at hts
      cases hr : projectAll proj shrest with
      | error e => rw [hr] at hts; exact absurd hts (by simp)
      | ok ts' =>
        rw [hr] at hts
        dsimp only at hts
        injection hts with hts
        injection hts with ht0 htrest
        rw [ht0] at hp
        rw [htrest] at hr
        unfold union_sheets
        rw [hne]
        dsimp only
        by_cases hlen : (sh0 :: shrest).length > 3
        · rw [if_pos hlen]
          simp only [batchInsertGo]
          rw [hp]
          dsimp only
          simp only [Bool.false_eq_true, if_false]
          rw [createTable_of_fresh (lookupTable_dropTable_self store tableName)]
          dsimp only
          obtain ⟨s', hs', hlook⟩ := batchInsertGo_success proj tableName shrest trest
            ((tableName, t0) :: dropTable store tableName) t0 hr
            (fun u hu => harity u (List.mem_cons_of_mem _ hu))
            (by rw [lookupTable_cons, if_pos rfl])
          refine ⟨s', hs', ?_⟩
          rw [hlook]
          simp
        · rw [if_neg hlen]
          have hpa : projectAll proj (sh0 :: shrest) = .ok (t0 :: trest) := by
            unfold projectAll
            rw [hp]
            dsimp only
            rw [hr]
          rw [hpa]
          dsimp only
          have hua : unionAllTables (t0 :: trest)
              = .ok ⟨t0.cols, t0.rows ++ (trest.map Table.rows).flatten⟩ := by
            unfold unionAllTables
            dsimp only
            rw [if_pos]
            apply List.all_eq_true.mpr
            intro u hu
            exact decide_eq_true (harity u (List.mem_cons_of_mem _ hu))
          rw [hua]
          dsimp only
          rw [createTable_of_fresh (lookupTable_dropTable_self store tableName)]
          dsimp only
          refine ⟨_, rfl, ?_⟩
          rw [lookupTable_cons, if_pos rfl]
          simp

theorem map_range_getD (l : List Table) (f : Table → List (List String)) :
    ((List.range l.length).map (fun i => f (l.getD i ⟨[], []⟩))) = l.map f := by
  induction l with
  | nil => rfl
  | cons a l ih =>
    rw [List.length_cons, List.range_succ_eq_map, List.map_cons, List.map_map,
      List.map_cons]
    refine congrArg _ ?_
    rw [← ih]
    apply List.map_congr_left
    intro i _
    rfl

/-- C10: for every input on which all sheets project successfully and agree
in column count, the sequential `union_sheets` — whichever of its two internal
strategies its sheet-count test selects — produces the destination rows as
the concatenation of the projected sheets' rows in sheet order, and the
concurrent merge consuming the same sheets in any completion order produces
the same multiset of rows. -/
theorem C10_strategy_equivalence (store : Store) (sheets : List Table)
    (tableName : String) (proj : Option IngestProj) (maxWorkers : Int)
    (msOf : Nat → Nat) (consumed doneU late : List Nat) (t0 : Table) (trest : List Table)
    (hts : projectAll proj sheets = .ok (t0 :: trest))
    (harity : ∀ u ∈ t0 :: trest, u.cols.length = t0.cols.length)
    (hmw : 1 ≤ maxWorkers)
    (hperm : consumed.Perm (List.range sheets.length))
    (hfresh : ∀ i ∈ consumed, lookupTable store (tempTableName i (msOf i)) = none)
    (hnodup : (consumed.map (fun i => tempTableName i (msOf i))).Nodup)
    (hname : ∀ i ∈ consumed, tempTableName i (msOf i) ≠ tableName) :
    ∃ s1 d1 s2 d2,
      union_sheets store sheets tableName proj = (s1, none) ∧
      lookupTable s1 tableName = some d1 ∧
      d1.rows = ((t0 :: trest).map Table.rows).flatten ∧
      union_sheets_concurrent store sheets tableName proj maxWorkers msOf consumed
        doneU late = (s2, none) ∧
      lookupTable s2 tableName = some d2 ∧
      d2.rows.Perm d1.rows := by
  obtain ⟨s1, hs1, hlook1⟩ := union_sheets_success store sheets tableName proj t0 trest
    hts harity
  have hlen : sheets.length = (t0 :: trest).length := projectAll_length proj sheets _ hts
  have hstage : ∀ i ∈ consumed, stageOf sheets proj i
      = .ok ((t0 :: trest).getD i ⟨[], []⟩) := by
    intro i hi
    have hir : i ∈ List.range sheets.length := hperm.mem_iff.mp hi
    have hilt : i < (t0 :: trest).length := by
      rw [← hlen]
      exact List.mem_range.mp hir
    apply projectAll_stageOf proj sheets _ hts
    rw [List.getElem?_eq_getElem hilt, List.getD_eq_getElem?_getD,
      List.getElem?_eq_getElem hilt]
    rfl
  cases hc : consumed with
  | nil =>
    exfalso
    have hl := hperm.length_eq
    rw [hc] at hl
    simp [hlen] at hl
  | cons c0 crest =>
    subst hc
    obtain ⟨s2, hs2, hlook2⟩ := usc_success store sheets tableName proj maxWorkers msOf
      (fun i => (t0 :: trest).getD i ⟨[], []⟩) c0 crest doneU late hmw hstage
      (by
        intro i hi
        have h1 := harity ((t0 :: trest).getD i ⟨[], []⟩)
        have hir : i ∈ List.range sheets.length := hperm.mem_iff.mp hi
        have hilt : i < (t0 :: trest).length := by
          rw [← hlen]
          exact List.mem_range.mp hir
        have hc0 : c0 ∈ List.range sheets.length :=
          hperm.mem_iff.mp (List.mem_cons_self _ _)
        have hc0lt : c0 < (t0 :: trest).length := by
          rw [← hlen]
          exact List.mem_range.mp hc0
        have hmemi : (t0 :: trest).getD i ⟨[], []⟩ ∈ t0 :: trest := by
          rw [List.getD_eq_getElem?_getD, List.getElem?_eq_getElem hilt]
          exact List.getElem_mem _
        have hmemc : (t0 :: trest).getD c0 ⟨[], []⟩ ∈ t0 :: trest := by
          rw [List.getD_eq_getElem?_getD, List.getElem?_eq_getElem hc0lt]
          exact List.getElem_mem _
        rw [harity _ hmemi, harity _ hmemc])
      hfresh hnodup hname
    refine ⟨s1, _, s2, _, hs1, hlook1, rfl, hs2, hlook2, ?_⟩
    dsimp only
    have hstep : ((c0 :: crest).map
          (fun i => ((t0 :: trest).getD i ⟨[], []⟩).rows)).Perm
        ((List.range sheets.length).map
          (fun i => ((t0 :: trest).getD i ⟨[], []⟩).rows)) :=
      hperm.map _
    have heq : ((List.range sheets.length).map
          (fun i => ((t0 :: trest).getD i ⟨[], []⟩).rows))
        = (t0 :: trest).map Table.rows := by
      rw [hlen]
      exact map_range_getD (t0 :: trest) Table.rows
    exact (hstep.flatten).trans (by rw [heq])

/-- C10 witness: the equivalence theorem applied to two one-column sheets,
consumed in reversed completion order. -/
theorem C10_strategy_equivalence_witness :
    ∃ s1 d1 s2 d2,
      union_sheets [] [⟨["A"], [["1"], ["2"]]⟩, ⟨["A"], [["3"]]⟩] "t3" none = (s1, none) ∧
      lookupTable s1 "t3" = some d1 ∧
      d1.rows = (([(⟨["A"], [["1"], ["2"]]⟩ : Table), ⟨["A"], [["3"]]⟩]).map
        Table.rows).flatten ∧
      union_sheets_concurrent [] [⟨["A"], [["1"], ["2"]]⟩, ⟨["A"], [["3"]]⟩] "t3" none 2
        (fun _ => 0) [1, 0] [] [] = (s2, none) ∧
      lookupTable s2 "t3" = some d2 ∧
      d2.rows.Perm d1.rows :=
  C10_strategy_equivalence [] [⟨["A"], [["1"], ["2"]]⟩, ⟨["A"], [["3"]]⟩] "t3" none 2
    (fun _ => 0) [1, 0] [] [] ⟨["A"], [["1"], ["2"]]⟩ [⟨["A"], [["3"]]⟩]
    (by decide) (by decide) (by decide) (by decide) (by decide) (by decide) (by decide)

/-! ### Lemmas about sorting and grouping (`unique_keys`) -/

theorem insertSorted_perm (r : List String) :
    ∀ l, (insertSorted r l).Perm (r :: l) := by
  intro l
  induction l with
  | nil => exact List.Perm.refl _
  | cons x xs ih =>
    unfold insertSorted
    by_cases h : rowLe r x = true
    · rw [if_pos h]
    · rw [if_neg h]
      exact (ih.cons x).trans (List.Perm.swap r x xs)

theorem sortByFirst_perm : ∀ l, (sortByFirst l).Perm l := by
  intro l
  induction l with
  | nil => exact List.Perm.refl _
  | cons r rs ih =>
    unfold sortByFirst
    exact (insertSorted_perm r _).trans (ih.cons r)

theorem insertGroup_keys (k : List String) (row : List String) :
    ∀ gs, (insertGroup k row gs).map Prod.fst
      = if k ∈ gs.map Prod.fst then gs.map Prod.fst else gs.map Prod.fst ++ [k] := by
  intro gs
  induction gs with
  | nil => simp [insertGroup]
  | cons g gs ih =>
    obtain ⟨k', rs⟩ := g
    unfold insertGroup
    by_cases h : k' = k
    · subst h
      simp
    · rw [if_neg h]
      by_cases hmem : k ∈ gs.map Prod.fst
      · simp [ih, hmem, Ne.symm h]
      · simp [ih, hmem, Ne.symm h]

theorem insertGroup_keys_nodup (k : List String) (row : List String)
    (gs : List (List String × List (List String))) (h : (gs.map Prod.fst).Nodup) :
    ((insertGroup k row gs).map Prod.fst).Nodup := by
  rw [insertGroup_keys]
  by_cases hmem : k ∈ gs.map Prod.fst
  · rw [if_pos hmem]
    exact h
  · rw [if_neg hmem]
    rw [List.nodup_append]
    exact ⟨h, List.nodup_singleton _, by
      intro a ha hak
      rw [List.mem_singleton.mp hak] at ha
      exact hmem ha⟩

theorem insertGroup_mem_keys (k : List String) (row : List String)
    (gs : List (List String × List (List String))) (a : List String) :
    a ∈ (insertGroup k row gs).map Prod.fst ↔ a ∈ gs.map Prod.fst ∨ a = k := by
  rw [insertGroup_keys]
  by_cases hmem : k ∈ gs.map Prod.fst
  · rw [if_pos hmem]
    constructor
    · exact Or.inl
    · rintro (h | h)
      · exact h
      · exact h ▸ hmem
  · rw [if_neg hmem]
    simp

theorem insertGroup_content (K : List String → List String) (k : List String)
    (row : List String) (hk : K row = k) :
    ∀ gs, (∀ p ∈ gs, p.2 ≠ [] ∧ ∀ r ∈ p.2, K r = p.1) →
      ∀ p ∈ insertGroup k row gs, p.2 ≠ [] ∧ ∀ r ∈ p.2, K r = p.1 := by
  intro gs
  induction gs with
  | nil =>
    intro _ p hp
    rw [insertGroup, List.mem_singleton] at hp
    subst hp
    refine ⟨by simp, ?_⟩
    intro r hr
    rw [List.mem_singleton.mp hr]
    exact hk
  | cons g gs ih =>
    obtain ⟨k', rs⟩ := g
    intro hall p hp
    unfold insertGroup at hp
    by_cases h : k' = k
    · rw [if_pos h] at hp
      rcases List.mem_cons.mp hp with hp | hp
      · subst hp
        refine ⟨by simp, ?_⟩
        intro r hr
        rcases List.mem_append.mp hr with hr | hr
        · exact (hall (k', rs) (List.mem_cons_self _ _)).2 r hr
        · rw [List.mem_singleton.mp hr, hk, h]
      · exact hall p (List.mem_cons_of_mem _ hp)
    · rw [if_neg h] at hp
      rcases List.mem_cons.mp hp with hp | hp
      · subst hp
        exact hall _ (List.mem_cons_self _ _)
      · exact ih (fun q hq => hall q (List.mem_cons_of_mem _ hq)) p hp

theorem foldl_insertGroup_spec (cols : List String) (ps : DedupProj) :
    ∀ (rows : List (List String)) (gs : List (List String × List (List String))),
      (gs.map Prod.fst).Nodup →
      (∀ p ∈ gs, p.2 ≠ [] ∧ ∀ r ∈ p.2, groupKey cols ps r = p.1) →
      ((rows.foldl (fun gs row => insertGroup (groupKey cols ps row) row gs) gs).map
          Prod.fst).Nodup ∧
        (∀ p ∈ rows.foldl (fun gs row => insertGroup (groupKey cols ps row) row gs) gs,
          p.2 ≠ [] ∧ ∀ r ∈ p.2, groupKey cols ps r = p.1) ∧
        (∀ a, a ∈ (rows.foldl
              (fun gs row => insertGroup (groupKey cols ps row) row gs) gs).map Prod.fst
            ↔ a ∈ gs.map Prod.fst ∨ a ∈ rows.map (groupKey cols ps)) := by
  intro rows
  induction rows with
  | nil =>
    intro gs h1 h2
    refine ⟨h1, h2, ?_⟩
    intro a
    simp
  | cons row rest ih =>
    intro gs h1 h2
    rw [List.foldl_cons]
    obtain ⟨g1, g2, g3⟩ := ih (insertGroup (groupKey cols ps row) row gs)
      (insertGroup_keys_nodup _ _ _ h1)
      (insertGroup_content _ _ _ rfl _ h2)
    refine ⟨g1, g2, ?_⟩
    intro a
    rw [g3 a, insertGroup_mem_keys, List.map_cons, List.mem_cons]
    tauto

theorem groupRows_spec (cols : List String) (ps : DedupProj) (rows : List (List String)) :
    ((groupRows cols ps rows).map Prod.fst).Nodup ∧
      (∀ p ∈ groupRows cols ps rows, p.2 ≠ [] ∧ ∀ r ∈ p.2, groupKey cols ps r = p.1) ∧
      (∀ a, a ∈ (groupRows cols ps rows).map Prod.fst ↔ a ∈ rows.map (groupKey cols ps)) := by
  obtain ⟨h1, h2, h3⟩ := foldl_insertGroup_spec cols ps rows [] (by simp) (by simp)
  refine ⟨h1, h2, ?_⟩
  intro a
  rw [groupRows, h3 a]
  simp

theorem insertGroup_not_mem (k : List String) (row : List String) :
    ∀ gs, k ∉ gs.map Prod.fst → insertGroup k row gs = gs ++ [(k, [row])] := by
  intro gs
  induction gs with
  | nil => intro _; rfl
  | cons g gs ih =>
    obtain ⟨k', rs⟩ := g
    intro h
    have hne : k' ≠ k := by
      intro he
      exact h (by
        rw [← he]
        exact List.mem_cons_self _ _)
    unfold insertGroup
    rw [if_neg hne, ih (fun hm => h (List.mem_cons_of_mem _ hm)), List.cons_append]

theorem foldl_insertGroup_distinct (cols : List String) (ps : DedupProj) :
    ∀ (rows : List (List String)) (gs : List (List String × List (List String))),
      (∀ r ∈ rows, groupKey cols ps r ∉ gs.map Prod.fst) →
      (rows.map (groupKey cols ps)).Nodup →
      rows.foldl (fun gs row => insertGroup (groupKey cols ps row) row gs) gs
        = gs ++ rows.map (fun r => (groupKey cols ps r, [r])) := by
  intro rows
  induction rows with
  | nil =>
    intro gs _ _
    simp
  | cons row rest ih =>
    intro gs hnotin hnodup
    rw [List.map_cons, List.nodup_cons] at hnodup
    rw [List.foldl_cons, insertGroup_not_mem _ _ _ (hnotin row (List.mem_cons_self _ _)),
      ih _ ?_ hnodup.2]
    · simp
    · intro r hr
      rw [List.map_append]
      intro hmem
      rcases List.mem_append.mp hmem with hm | hm
      · exact hnotin r (List.mem_cons_of_mem _ hr) hm
      · have : groupKey cols ps r = groupKey cols ps row := by
          simpa using hm
        exact hnodup.1 (this ▸ List.mem_map_of_mem _ hr)

theorem groupRows_distinct (cols : List String) (ps : DedupProj)
    (rows : List (List String)) (h : (rows.map (groupKey cols ps)).Nodup) :
    groupRows cols ps rows = rows.map (fun r => (groupKey cols ps r, [r])) := by
  rw [groupRows, foldl_insertGroup_distinct cols ps rows [] (by simp) h]
  simp

theorem colIndex_isSome_of_mem : ∀ (cols : List String) (c : String), c ∈ cols →
    (colIndex cols c).isSome = true := by
  intro cols
  induction cols with
  | nil => intro c h; simp at h
  | cons c0 cs ih =>
    intro c h
    unfold colIndex
    by_cases he : c0 = c
    · rw [if_pos he]
      rfl
    · rw [if_neg he]
      rcases List.mem_cons.mp h with h0 | h0
      · exact absurd h0.symm he
      · have := ih c h0
        cases hc : colIndex cs c with
        | none => rw [hc] at this; simp at this
        | some i => rfl

theorem colIndex_cons (c0 x : String) (cs : List String) :
    colIndex (c0 :: cs) x = if c0 = x then some 0 else (colIndex cs x).map (· + 1) := rfl

theorem evalCol_cons_ne (c0 c v : String) (rv : List String) (cs : List String)
    (hne : c0 ≠ c) (hsome : (colIndex cs c).isSome = true) :
    evalCol (c0 :: cs) (v :: rv) c = evalCol cs rv c := by
  unfold evalCol
  rw [colIndex_cons, if_neg hne]
  cases hci : colIndex cs c with
  | none => rw [hci] at hsome; simp at hsome
  | some i => simp

theorem map_evalCol_self : ∀ (cols r : List String), cols.Nodup →
    r.length = cols.length → cols.map (fun c => evalCol cols r c) = r := by
  intro cols
  induction cols with
  | nil =>
    intro r _ hlen
    rw [List.length_nil] at hlen
    rw [List.eq_nil_of_length_eq_zero hlen]
    rfl
  | cons c0 cs ih =>
    intro r hnodup hlen
    rw [List.nodup_cons] at hnodup
    cases r with
    | nil => simp at hlen
    | cons v rv =>
      rw [List.length_cons, List.length_cons, Nat.succ_inj] at hlen
      rw [List.map_cons]
      have hhead : evalCol (c0 :: cs) (v :: rv) c0 = v := by
        unfold evalCol colIndex
        rw [if_pos rfl]
        rfl
      rw [hhead]
      refine congrArg _ ?_
      have hstep : cs.map (fun c => evalCol (c0 :: cs) (v :: rv) c)
          = cs.map (fun c => evalCol cs rv c) := by
        apply List.map_congr_left
        intro c hc
        have hne : c0 ≠ c := fun he => hnodup.1 (he ▸ hc)
        exact evalCol_cons_ne c0 c v rv cs hne (colIndex_isSome_of_mem cs c hc)
      rw [hstep]
      exact ih rv hnodup.2 hlen

theorem u_prefix_ne (n : String) : "u_" ++ n ≠ n := by
  intro h
  have hlen := congrArg String.length h
  rw [String.length_append] at hlen
  have h2 : "u_".length = 2 := rfl
  rw [h2] at hlen
  omega

theorem unique_keys_ok (store : Store) (tableName : String) (p : DedupExpr × Option String)
    (ps' : DedupProj) (t : Table)
    (hlook : lookupTable store tableName = some t)
    (hbinder : dedupBinderOk t.cols (p :: ps') = true) :
    unique_keys store tableName (p :: ps')
      = (("u_" ++ tableName,
            (⟨dedupOutCols (p :: ps'),
              sortByFirst ((groupRows t.cols (p :: ps') t.rows).map
                (outputRow t.cols (p :: ps')))⟩ : Table))
          :: dropTable store ("u_" ++ tableName), .ok ("u_" ++ tableName)) := by
  unfold unique_keys
  rw [if_neg (by simp)]
  dsimp only
  rw [lookupTable_dropTable_ne store (Ne.symm (u_prefix_ne tableName)), hlook]
  dsimp only
  rw [if_pos hbinder,
    createTable_of_fresh (lookupTable_dropTable_self store ("u_" ++ tableName))]

theorem filter_nonagg (k : String) (a0 : Option String) (psrest : DedupProj)
    (hagg : ∀ p ∈ psrest, isAggregate p.1 = true) :
    ((DedupExpr.col k, a0) :: psrest).filter (fun p => !(isAggregate p.1))
      = [(DedupExpr.col k, a0)] := by
  rw [List.filter_cons]
  have hrest : psrest.filter (fun p => !(isAggregate p.1)) = [] := by
    rw [List.filter_eq_nil_iff]
    intro p hp
    simp [hagg p hp]
  rw [hrest]
  simp [isAggregate]

theorem groupKey_key_col (cols : List String) (k : String) (a0 : Option String)
    (psrest : DedupProj) (hagg : ∀ p ∈ psrest, isAggregate p.1 = true)
    (row : List String) :
    groupKey cols ((DedupExpr.col k, a0) :: psrest) row = [evalCol cols row k] := by
  unfold groupKey
  rw [filter_nonagg k a0 psrest hagg]
  rfl

/-- C4 (amended): `GROUP BY ALL` groups by every non-aggregate select
expression, so `unique_keys` emits one row per distinct combination of those
values, not per distinct key (see the counterexample).  In the configuration
the spec describes — the key a plain column and every other entry an
aggregate — the output does have exactly one row per distinct key value: its
key column is duplicate-free and carries exactly the key values of the input,
each non-key expression being evaluated once over that key's group. -/
theorem C4_dedup_key (store : Store) (tableName : String) (t : Table) (k : String)
    (a0 : Option String) (psrest : DedupProj)
    (hlook : lookupTable store tableName = some t)
    (hagg : ∀ p ∈ psrest, isAggregate p.1 = true)
    (hbinder : dedupBinderOk t.cols ((DedupExpr.col k, a0) :: psrest) = true) :
    (unique_keys store tableName ((DedupExpr.col k, a0) :: psrest)).2
        = .ok ("u_" ++ tableName) ∧
      ∃ out, lookupTable
          (unique_keys store tableName ((DedupExpr.col k, a0) :: psrest)).1
          ("u_" ++ tableName) = some out ∧
        (out.rows.map (fun r => r.headD "")).Nodup ∧
        (∀ v, v ∈ out.rows.map (fun r => r.headD "")
          ↔ v ∈ t.rows.map (fun r => evalCol t.cols r k)) := by
  rw [unique_keys_ok store tableName _ psrest t hlook hbinder]
  obtain ⟨g1, g2, g3⟩ :=
    groupRows_spec t.cols ((DedupExpr.col k, a0) :: psrest) t.rows
  have hK := groupKey_key_col t.cols k a0 psrest hagg
  have headf : ∀ g ∈ groupRows t.cols ((DedupExpr.col k, a0) :: psrest) t.rows,
      (outputRow t.cols ((DedupExpr.col k, a0) :: psrest) g).headD "" = g.1.headD "" := by
    intro g hg
    obtain ⟨hne, hmem⟩ := g2 g hg
    have hrep : g.2.headD [] ∈ g.2 := by
      cases hg2 : g.2 with
      | nil => exact absurd hg2 hne
      | cons a l => simp
    have hkey := hmem _ hrep
    rw [hK] at hkey
    unfold outputRow
    rw [List.map_cons]
    dsimp only
    rw [List.headD_cons, ← hkey]
    rfl
  have houts : (((groupRows t.cols ((DedupExpr.col k, a0) :: psrest) t.rows).map
        (outputRow t.cols ((DedupExpr.col k, a0) :: psrest))).map (fun r => r.headD ""))
      = (groupRows t.cols ((DedupExpr.col k, a0) :: psrest) t.rows).map
          (fun g => g.1.headD "") := by
    rw [List.map_map]
    exact List.map_congr_left headf
  have keysSingleton : ∀ a ∈ (groupRows t.cols ((DedupExpr.col k, a0) :: psrest)
      t.rows).map Prod.fst, ∃ v, a = [v] := by
    intro a ha
    rw [g3] at ha
    obtain ⟨row, _, hrowk⟩ := List.mem_map.mp ha
    rw [hK] at hrowk
    exact ⟨evalCol t.cols row k, hrowk.symm⟩
  have hsortperm := sortByFirst_perm
    ((groupRows t.cols ((DedupExpr.col k, a0) :: psrest) t.rows).map
      (outputRow t.cols ((DedupExpr.col k, a0) :: psrest)))
  have hpermmap := hsortperm.map (fun r => r.headD "")
  refine ⟨rfl, ⟨⟨dedupOutCols ((DedupExpr.col k, a0) :: psrest),
      sortByFirst ((groupRows t.cols ((DedupExpr.col k, a0) :: psrest) t.rows).map
        (outputRow t.cols ((DedupExpr.col k, a0) :: psrest)))⟩,
    by rw [lookupTable_cons, if_pos rfl], ?_, ?_⟩⟩
  · dsimp only
    rw [hpermmap.nodup_iff, houts]
    have : (groupRows t.cols ((DedupExpr.col k, a0) :: psrest) t.rows).map
        (fun g => g.1.headD "")
        = ((groupRows t.cols ((DedupExpr.col k, a0) :: psrest) t.rows).map
          Prod.fst).map (fun a => a.headD "") := by
      rw [List.map_map]
      rfl
    rw [this]
    apply List.Nodup.map_on ?_ g1
    intro x hx y hy hxy
    obtain ⟨vx, hvx⟩ := keysSingleton x hx
    obtain ⟨vy, hvy⟩ := keysSingleton y hy
    rw [hvx, hvy] at hxy ⊢
    rw [List.headD_cons, List.headD_cons] at hxy
    rw [hxy]
  · intro v
    dsimp only
    rw [hpermmap.mem_iff, houts]
    constructor
    · intro hv
      obtain ⟨g, hg, hgv⟩ := List.mem_map.mp hv
      have hgv' : g.1.headD "" = v := hgv
      obtain ⟨w, hw⟩ := keysSingleton g.1 (List.mem_map_of_mem Prod.fst hg)
      have hkmem : g.1 ∈ (groupRows t.cols ((DedupExpr.col k, a0) :: psrest)
          t.rows).map Prod.fst := List.mem_map_of_mem Prod.fst hg
      rw [g3] at hkmem
      obtain ⟨row, hrow, hrowk⟩ := List.mem_map.mp hkmem
      rw [hK] at hrowk
      rw [hw, List.headD_cons] at hgv'
      have hvw : evalCol t.cols row k = w := by
        have := hrowk.trans hw
        injection this
      rw [← hgv', ← hvw]
      exact List.mem_map_of_mem _ hrow
    · intro hv
      obtain ⟨row, hrow, hrowv⟩ := List.mem_map.mp hv
      have hkmem : [v] ∈ (groupRows t.cols ((DedupExpr.col k, a0) :: psrest)
          t.rows).map Prod.fst := by
        rw [g3]
        have : groupKey t.cols ((DedupExpr.col k, a0) :: psrest) row = [v] := by
          rw [hK, hrowv]
        exact this ▸ List.mem_map_of_mem _ hrow
      obtain ⟨g, hg, hgk⟩ := List.mem_map.mp hkmem
      have : (fun g => g.1.headD "") g = v := by
        show g.1.headD "" = v
        rw [hgk, List.headD_cons]
      exact this ▸ List.mem_map_of_mem _ hg

/-- C4 witness: the amended dedup theorem applied to a two-column table whose
key `x` has a duplicate, with an `any_value` combinator on `y`. -/
theorem C4_dedup_key_witness :
    (unique_keys [("t5", ⟨["x", "y"], [["1", "a"], ["1", "b"], ["2", "c"]]⟩)] "t5"
        ((DedupExpr.col "x", none) :: [(DedupExpr.anyValue "y", some "y")])).2
        = .ok ("u_" ++ "t5") ∧
      ∃ out, lookupTable
          (unique_keys [("t5", ⟨["x", "y"], [["1", "a"], ["1", "b"], ["2", "c"]]⟩)] "t5"
            ((DedupExpr.col "x", none) :: [(DedupExpr.anyValue "y", some "y")])).1
          ("u_" ++ "t5") = some out ∧
        (out.rows.map (fun r => r.headD "")).Nodup ∧
        (∀ v, v ∈ out.rows.map (fun r => r.headD "")
          ↔ v ∈ ([["1", "a"], ["1", "b"], ["2", "c"]] : List (List String)).map
              (fun r => evalCol ["x", "y"] r "x")) :=
  C4_dedup_key [("t5", ⟨["x", "y"], [["1", "a"], ["1", "b"], ["2", "c"]]⟩)] "t5"
    ⟨["x", "y"], [["1", "a"], ["1", "b"], ["2", "c"]]⟩ "x" none
    [(DedupExpr.anyValue "y", some "y")] (by decide) (by decide) (by decide)

/-- C8: on a relation whose key column (the first column) has no duplicate
values, `unique_keys` with the "keep first column, `any_value` every other
column" projection returns a relation with the input's columns whose rows are
a permutation of the input's rows. -/
theorem C8_idempotent_dedup (store : Store) (tableName : String) (t : Table)
    (c0 : String) (cs : List String)
    (hcols : t.cols = c0 :: cs)
    (hnodc : t.cols.Nodup)
    (hwf : ∀ r ∈ t.rows, r.length = t.cols.length)
    (hkeys : (t.rows.map (fun r => evalCol t.cols r c0)).Nodup)
    (hblank : ∀ c ∈ cs, (c.data.all Char.isWhitespace) = false)
    (hlook : lookupTable store tableName = some t) :
    (unique_keys store tableName
        ((DedupExpr.col c0, none) :: cs.map (fun c => (DedupExpr.anyValue c, some c)))).2
        = .ok ("u_" ++ tableName) ∧
      ∃ out, lookupTable (unique_keys store tableName
          ((DedupExpr.col c0, none) ::
            cs.map (fun c => (DedupExpr.anyValue c, some c)))).1
          ("u_" ++ tableName) = some out ∧
        out.cols = t.cols ∧ out.rows.Perm t.rows := by
  have hagg : ∀ p ∈ cs.map (fun c => ((DedupExpr.anyValue c), some c)),
      isAggregate p.1 = true := by
    intro p hp
    obtain ⟨c, _, hcp⟩ := List.mem_map.mp hp
    rw [← hcp]
    rfl
  have hbinder : dedupBinderOk t.cols
      ((DedupExpr.col c0, none) :: cs.map (fun c => (DedupExpr.anyValue c, some c)))
      = true := by
    apply List.all_eq_true.mpr
    intro p hp
    rcases List.mem_cons.mp hp with hp0 | hp0
    · subst hp0
      show (colIndex t.cols c0).isSome = true
      apply colIndex_isSome_of_mem
      rw [hcols]
      exact List.mem_cons_self _ _
    · obtain ⟨c, hc, hcp⟩ := List.mem_map.mp hp0
      subst hcp
      show (colIndex t.cols c).isSome = true
      apply colIndex_isSome_of_mem
      rw [hcols]
      exact List.mem_cons_of_mem _ hc
  rw [unique_keys_ok store tableName _ _ t hlook hbinder]
  have hK := groupKey_key_col t.cols c0 none
    (cs.map (fun c => (DedupExpr.anyValue c, some c))) hagg
  have hKnodup : (t.rows.map (groupKey t.cols
      ((DedupExpr.col c0, none) :: cs.map (fun c => (DedupExpr.anyValue c, some c))))).Nodup := by
    have hrw : t.rows.map (groupKey t.cols
        ((DedupExpr.col c0, none) :: cs.map (fun c => (DedupExpr.anyValue c, some c))))
        = (t.rows.map (fun r => evalCol t.cols r c0)).map (fun v => [v]) := by
      rw [List.map_map]
      apply List.map_congr_left
      intro r _
      exact hK r
    rw [hrw]
    exact hkeys.map (fun a b h => by injection h)
  have hgroups := groupRows_distinct t.cols
    ((DedupExpr.col c0, none) :: cs.map (fun c => (DedupExpr.anyValue c, some c)))
    t.rows hKnodup
  have houtrows : (groupRows t.cols
      ((DedupExpr.col c0, none) :: cs.map (fun c => (DedupExpr.anyValue c, some c)))
      t.rows).map (outputRow t.cols
        ((DedupExpr.col c0, none) :: cs.map (fun c => (DedupExpr.anyValue c, some c))))
      = t.rows := by
    rw [hgroups, List.map_map]
    have hid : ∀ r ∈ t.rows, (outputRow t.cols
        ((DedupExpr.col c0, none) :: cs.map (fun c => (DedupExpr.anyValue c, some c)))
        ∘ (fun r => (groupKey t.cols
            ((DedupExpr.col c0, none) :: cs.map (fun c => (DedupExpr.anyValue c, some c)))
            r, [r]))) r = r := by
      intro r hr
      show outputRow t.cols
          ((DedupExpr.col c0, none) :: cs.map (fun c => (DedupExpr.anyValue c, some c)))
          (groupKey t.cols
            ((DedupExpr.col c0, none) :: cs.map (fun c => (DedupExpr.anyValue c, some c)))
            r, [r]) = r
      rw [hcols]
      unfold outputRow
      rw [List.map_cons, List.map_map]
      dsimp only
      have hself := map_evalCol_self t.cols r hnodc (hwf r hr)
      rw [hcols, List.map_cons] at hself
      exact hself
    calc t.rows.map (outputRow t.cols
          ((DedupExpr.col c0, none) :: cs.map (fun c => (DedupExpr.anyValue c, some c)))
          ∘ (fun r => (groupKey t.cols
              ((DedupExpr.col c0, none) :: cs.map (fun c => (DedupExpr.anyValue c, some c)))
              r, [r])))
        = t.rows.map id := List.map_congr_left hid
      _ = t.rows := List.map_id _
  have hdoc : dedupOutCols
      ((DedupExpr.col c0, none) :: cs.map (fun c => (DedupExpr.anyValue c, some c)))
      = c0 :: cs := by
    unfold dedupOutCols
    rw [List.map_cons]
    refine congrArg _ ?_
    rw [List.map_map]
    calc (cs.map (fun c => projOutName (dedupExprName (DedupExpr.anyValue c)) (some c)))
        = cs.map id := by
          apply List.map_congr_left
          intro c hc
          show projOutName (dedupExprName (DedupExpr.anyValue c)) (some c) = c
          unfold projOutName
          dsimp only
          rw [hblank c hc]
          simp
      _ = cs := List.map_id _
  refine ⟨rfl, ⟨_, by rw [lookupTable_cons, if_pos rfl], ?_, ?_⟩⟩
  · dsimp only
    rw [hdoc, hcols]
  · dsimp only
    rw [houtrows]
    exact sortByFirst_perm t.rows

/-- C8 witness: the idempotent-dedup theorem applied to a two-column table
with distinct keys `2` and `1`. -/
theorem C8_idempotent_dedup_witness :
    (unique_keys [("t6", ⟨["x", "y"], [["2", "a"], ["1", "b"]]⟩)] "t6"
        ((DedupExpr.col "x", none) :: ["y"].map (fun c => (DedupExpr.anyValue c, some c)))).2
        = .ok ("u_" ++ "t6") ∧
      ∃ out, lookupTable (unique_keys [("t6", ⟨["x", "y"], [["2", "a"], ["1", "b"]]⟩)] "t6"
          ((DedupExpr.col "x", none) ::
            ["y"].map (fun c => (DedupExpr.anyValue c, some c)))).1
          ("u_" ++ "t6") = some out ∧
        out.cols = (⟨["x", "y"], [["2", "a"], ["1", "b"]]⟩ : Table).cols ∧
        out.rows.Perm (⟨["x", "y"], [["2", "a"], ["1", "b"]]⟩ : Table).rows :=
  C8_idempotent_dedup [("t6", ⟨["x", "y"], [["2", "a"], ["1", "b"]]⟩)] "t6"
    ⟨["x", "y"], [["2", "a"], ["1", "b"]]⟩ "x" ["y"] (by decide) (by decide) (by decide)
    (by decide) (by decide) (by decide)

/-! ### Decimal rendering of naturals (for staging-name uniqueness, C7) -/

theorem toDigitsCore_acc : ∀ (f n : Nat) (ds : List Char),
    Nat.toDigitsCore 10 f n ds = Nat.toDigitsCore 10 f n [] ++ ds := by
  intro f
  induction f with
  | zero => intro n ds; rfl
  | succ f ih =>
    intro n ds
    by_cases h : n / 10 = 0
    · simp [Nat.toDigitsCore, h]
    · simp only [Nat.toDigitsCore, h, if_neg, if_false]
      rw [ih (n / 10) (Nat.digitChar (n % 10) :: ds),
        ih (n / 10) [Nat.digitChar (n % 10)], List.append_assoc]
      rfl

theorem toDigitsCore_eq_digits : ∀ (f n : Nat), n ≠ 0 → n < f →
    Nat.toDigitsCore 10 f n [] = ((Nat.digits 10 n).map Nat.digitChar).reverse := by
  intro f
  induction f with
  | zero => intro n _ hf; omega
  | succ f ih =>
    intro n h0 hf
    have hdig : Nat.digits 10 n = n % 10 :: Nat.digits 10 (n / 10) :=
      Nat.digits_def' (by norm_num) (Nat.pos_of_ne_zero h0)
    by_cases h : n / 10 = 0
    · have hdig0 : Nat.digits 10 (n / 10) = [] := by rw [h]; exact Nat.digits_zero 10
      rw [hdig, hdig0]
      simp [Nat.toDigitsCore, h]
    · have hn10 : n / 10 < f := by omega
      simp only [Nat.toDigitsCore, h, if_neg, if_false]
      rw [toDigitsCore_acc, ih (n / 10) h hn10, hdig]
      simp

theorem toDigits_ten_eq (n : Nat) :
    Nat.toDigits 10 n
      = if n = 0 then ['0'] else ((Nat.digits 10 n).map Nat.digitChar).reverse := by
  by_cases h : n = 0
  · rw [if_pos h, h]
    rfl
  · rw [if_neg h]
    exact toDigitsCore_eq_digits (n + 1) n h (Nat.lt_succ_self n)

theorem digitChar_lt10_ne_underscore :
    ∀ d ∈ List.range 10, Nat.digitChar d ≠ '_' := by decide

theorem digitChar_lt10_inj : ∀ d1 ∈ List.range 10, ∀ d2 ∈ List.range 10,
    Nat.digitChar d1 = Nat.digitChar d2 → d1 = d2 := by decide

theorem underscore_not_mem_toDigits (n : Nat) : '_' ∉ Nat.toDigits 10 n := by
  rw [toDigits_ten_eq]
  by_cases h : n = 0
  · rw [if_pos h]
    decide
  · rw [if_neg h]
    intro hmem
    rw [List.mem_reverse] at hmem
    obtain ⟨d, hd, hdc⟩ := List.mem_map.mp hmem
    have hlt : d < 10 := Nat.digits_lt_base (by norm_num) hd
    exact digitChar_lt10_ne_underscore d (List.mem_range.mpr hlt) hdc

theorem map_digitChar_inj : ∀ (l1 l2 : List Nat), (∀ d ∈ l1, d < 10) →
    (∀ d ∈ l2, d < 10) → l1.map Nat.digitChar = l2.map Nat.digitChar → l1 = l2 := by
  intro l1
  induction l1 with
  | nil =>
    intro l2 _ _ h
    cases l2 with
    | nil => rfl
    | cons b l2 => simp at h
  | cons a l1 ih =>
    intro l2 h1 h2 h
    cases l2 with
    | nil => simp at h
    | cons b l2 =>
      rw [List.map_cons, List.map_cons] at h
      injection h with hab htail
      have hA : a = b := digitChar_lt10_inj a
        (List.mem_range.mpr (h1 a (List.mem_cons_self _ _)))
        b (List.mem_range.mpr (h2 b (List.mem_cons_self _ _))) hab
      rw [hA, ih l2 (fun d hd => h1 d (List.mem_cons_of_mem _ hd))
        (fun d hd => h2 d (List.mem_cons_of_mem _ hd)) htail]

theorem toDigits_ten_inj (n m : Nat) (h : Nat.toDigits 10 n = Nat.toDigits 10 m) :
    n = m := by
  rw [toDigits_ten_eq, toDigits_ten_eq] at h
  by_cases hn : n = 0 <;> by_cases hm : m = 0
  · rw [hn, hm]
  · exfalso
    rw [if_pos hn, if_neg hm] at h
    have hrev := congrArg List.reverse h
    rw [List.reverse_reverse] at hrev
    have hd : Nat.digits 10 m = [0] := by
      apply map_digitChar_inj
      · intro d hd
        exact Nat.digits_lt_base (by norm_num) hd
      · intro d hd
        rw [List.mem_singleton.mp hd]
        norm_num
      · rw [← hrev]
        rfl
    have := Nat.ofDigits_digits 10 m
    rw [hd] at this
    simp [Nat.ofDigits] at this
    exact hm this.symm
  · exfalso
    rw [if_neg hn, if_pos hm] at h
    have hrev := congrArg List.reverse h
    rw [List.reverse_reverse] at hrev
    have hd : Nat.digits 10 n = [0] := by
      apply map_digitChar_inj
      · intro d hd
        exact Nat.digits_lt_base (by norm_num) hd
      · intro d hd
        rw [List.mem_singleton.mp hd]
        norm_num
      · rw [hrev]
        rfl
    have := Nat.ofDigits_digits 10 n
    rw [hd] at this
    simp [Nat.ofDigits] at this
    exact hn this.symm
  · rw [if_neg hn, if_neg hm] at h
    have hrev := congrArg List.reverse h
    rw [List.reverse_reverse, List.reverse_reverse] at hrev
    have hd := map_digitChar_inj (Nat.digits 10 n) (Nat.digits 10 m)
      (fun d hd => Nat.digits_lt_base (by norm_num) hd)
      (fun d hd => Nat.digits_lt_base (by norm_num) hd) hrev
    calc n = Nat.ofDigits 10 (Nat.digits 10 n) := (Nat.ofDigits_digits 10 n).symm
      _ = Nat.ofDigits 10 (Nat.digits 10 m) := by rw [hd]
      _ = m := Nat.ofDigits_digits 10 m

theorem append_underscore_inj : ∀ (l1 l2 r1 r2 : List Char), '_' ∉ l1 → '_' ∉ l2 →
    l1 ++ '_' :: r1 = l2 ++ '_' :: r2 → l1 = l2 ∧ r1 = r2 := by
  intro l1
  induction l1 with
  | nil =>
    intro l2 r1 r2 _ h2 he
    cases l2 with
    | nil =>
      rw [List.nil_append, List.nil_append] at he
      injection he with _ he
      exact ⟨rfl, he⟩
    | cons c l2 =>
      exfalso
      rw [List.nil_append, List.cons_append] at he
      injection he with hc _
      exact h2 (by rw [hc]; exact List.mem_cons_self _ _)
  | cons c l1 ih =>
    intro l2 r1 r2 h1 h2 he
    cases l2 with
    | nil =>
      exfalso
      rw [List.nil_append, List.cons_append] at he
      injection he with hc _
      exact h1 (by rw [← hc]; exact List.mem_cons_self _ _)
    | cons c2 l2 =>
      rw [List.cons_append, List.cons_append] at he
      injection he with hc he
      obtain ⟨ha, hb⟩ := ih l2 r1 r2 (fun hm => h1 (List.mem_cons_of_mem _ hm))
        (fun hm => h2 (List.mem_cons_of_mem _ hm)) he
      exact ⟨by rw [hc, ha], hb⟩

theorem tempTableName_inj (i m j n : Nat)
    (h : tempTableName i m = tempTableName j n) : i = j ∧ m % 10000 = n % 10000 := by
  unfold tempTableName at h
  have hdata := congrArg String.data h
  simp only [String.data_append] at hdata
  have hts : ∀ x : Nat, (toString x).data = Nat.toDigits 10 x := fun x => rfl
  rw [hts i, hts j, hts (m % 10000), hts (n % 10000)] at hdata
  rw [List.append_assoc, List.append_assoc, List.append_assoc, List.append_assoc]
    at hdata
  have hcut := List.append_cancel_left hdata
  rw [List.singleton_append, List.singleton_append] at hcut
  obtain ⟨hij, hmn⟩ := append_underscore_inj _ _ _ _
    (underscore_not_mem_toDigits i) (underscore_not_mem_toDigits j) hcut
  exact ⟨toDigits_ten_inj i j hij, toDigits_ten_inj _ _ hmn⟩

/-- C7 (amended): staging-table names are unique WITHIN one merge call —
distinct sheet indices always yield distinct `temp_sheet_{i}_{ms % 10000}`
names, whatever timestamps the workers observe — but they are not unique
across the process lifetime (see the counterexample: equal indices with
timestamps 10000 ms apart collide). -/
theorem C7_unique_within_call (i j m n : Nat) (hij : i ≠ j) :
    tempTableName i m ≠ tempTableName j n := by
  intro h
  exact hij (tempTableName_inj i m j n h).1

/-- C7 witness: two tasks of one call, indices 0 and 1, same timestamp, get
distinct staging names. -/
theorem C7_unique_within_call_witness : tempTableName 0 5 ≠ tempTableName 1 5 :=
  C7_unique_within_call 0 1 5 5 (by decide)

/-- C7 counterexample: two distinct worker tasks — same sheet index, run 10
seconds apart (millisecond timestamps 0 and 10000, e.g. a retry or a second
call) — generate the SAME staging-table name. -/
theorem C7_counterexample :
    tempTableName 0 0 = tempTableName 0 10000 ∧ (0 : Nat) ≠ 10000 :=
  ⟨rfl, by decide⟩

end UnionSheets
